import Mathlib

/-!
Verification of the netjugo IP-prefix aggregation library.

This file shallowly embeds the core of the Go library: the prefix/range
conversions of `validation.go`, the aggregation pipeline (`Aggregate`,
`sortAndDeduplicate`, `aggregatePrefixes`, `enforceMinPrefixLengths`) and the
exclusion engine (`processExclusionsNew`, `createOptimalPrefixes`,
`findOverlappingPrefixes`, `replacePrefixesInList`), together with the
aggregator entity (`NewPrefixAggregator`, `Reset`, the configuration setters).

IP addresses are 128-bit unsigned integers modelled as `Nat` (IPv4 occupies the
low 32 bits); the Go code works on `uint256.Int`, whose values in this library
always stay below `2^128`, and overflow/truncation points of the Go code
(`Uint64()`, byte masks) are modelled explicitly.  Go slices of `*IPPrefix`
become `List IPPrefix`; `sort.Slice` (an unstable sort by `Min`) is modelled by
a deterministic insertion sort with the same ordering predicate.  Loops are
modelled by structural recursion with explicit fuel wherever the Go loop has a
data-dependent bound, keeping every definition kernel-evaluable.
-/

namespace Netjugo

/-- Width of the address family in bits: 32 for IPv4, 128 for IPv6
(the two-element table of the design notes). -/
def widthOf (isIPv4 : Bool) : Nat := if isIPv4 then 32 else 128

/-- The `IPPrefix` struct: the `netip.Prefix` field is modelled by its address
value `addr` (which may carry host bits, exactly as `netip.ParsePrefix` keeps
them) and its length `bits`; `min`/`max` are the two `uint256.Int` fields. -/
structure IPPrefix where
  addr : Nat
  bits : Nat
  min : Nat
  max : Nat
deriving DecidableEq, Repr

/-- Default element used where Go would index a slice (out-of-range access is
unreachable in the modelled loops). -/
def dfltPfx : IPPrefix := ⟨0, 0, 0, 0⟩

/-! ### Byte-level model of `uint256.Int`

`Bytes()` returns the minimal-length big-endian byte slice of the value (no
leading zero bytes); `SetBytes` reads a big-endian slice.  Values of interest
are below `2^256`, so 32 bytes of fuel make the recursion structural. -/

/-- Minimal big-endian byte list of `n`, as `uint256.Int.Bytes()` returns it
(empty for 0).  Faithful for `n < 2^(8*fuel)`; called with fuel 32. -/
def natToBytesBEAux : Nat → Nat → List Nat
  | 0, _ => []
  | fuel + 1, n => if n = 0 then [] else natToBytesBEAux fuel (n / 256) ++ [n % 256]

/-- `uint256.Int.Bytes()`: minimal big-endian bytes of a value `< 2^256`. -/
def natToBytesBE (n : Nat) : List Nat := natToBytesBEAux 32 n

/-- `uint256.Int.SetBytes`: big-endian interpretation of a byte list. -/
def bytesBEToNat (l : List Nat) : Nat := l.foldl (fun acc b => acc * 256 + b) 0

/-! ### Prefix-to-range conversion (`validation.go`) -/

/-- `ipv4PrefixToUint256Range` of `validation.go`.  `addr4` is the 4-byte
address value; the Go arithmetic is on `uint32`, so the shift and the
subtraction wrap modulo `2^32` (for `hostBits = 32` the Go shift of a `uint32`
by 32 yields 0 and `0 - 1` wraps to `0xFFFFFFFF`). -/
def ipv4PrefixToUint256Range (addr4 : Nat) (bits : Nat) : Except Unit (Nat × Nat) :=
  if bits > 32 then .error ()
  else if bits = 32 then .ok (addr4, addr4)
  else
    let hostBits := 32 - bits
    let mask := (0xFFFFFFFF <<< hostBits) % 2 ^ 32
    let minVal := addr4 &&& mask
    let ones := ((1 <<< hostBits) % 2 ^ 32 + (2 ^ 32 - 1)) % 2 ^ 32
    .ok (minVal, minVal ||| ones)

/-- The 16-byte AND mask `validation.go` builds to clear whole host bytes:
the first `16 - bytesToClear` bytes are `0xFF`, the rest are zero. -/
def ipv6ByteMask (bytesToClear : Nat) : Nat :=
  bytesBEToNat (List.replicate (16 - bytesToClear) 0xFF ++ List.replicate bytesToClear 0)

/-- The partial-byte clearing step of `ipv6PrefixToUint256Range`: it takes the
minimal-length `Bytes()` of the current min, masks the byte at index
`15 - hostBits/8` when that index is within the slice, and reads the bytes
back.  (Indexing the minimal-length slice with an index computed for the full
16-byte layout is faithful to the Go code.) -/
def ipv6ClearPartialByte (minA hostBits : Nat) : Nat :=
  let byteIndex := 15 - hostBits / 8
  let bitMask := (0xFF <<< (hostBits % 8)) % 256
  let minBytes := natToBytesBE minA
  if minBytes.length > byteIndex then
    bytesBEToNat (minBytes.set byteIndex ((minBytes.getD byteIndex 0) &&& bitMask))
  else minA

/-- `ipv6PrefixToUint256Range` of `validation.go`.  `addr16` is the 16-byte
address value.  The max is built through the 64-bit-word branches of the Go
code; the min is cleared bytewise and then by the partial-byte step. -/
def ipv6PrefixToUint256Range (addr16 : Nat) (bits : Nat) : Except Unit (Nat × Nat) :=
  if bits > 128 then .error ()
  else if bits = 128 then .ok (addr16, addr16)
  else
    let hostBits := 128 - bits
    let maxA :=
      if hostBits ≥ 64 then
        let m := addr16 ||| (2 ^ 64 - 1)
        if hostBits > 64 then
          let shift := hostBits - 64
          if shift ≥ 64 then m ||| ((2 ^ 64 - 1) <<< 64)
          else m ||| ((2 ^ shift - 1) <<< 64)
        else m
      else addr16 ||| (2 ^ hostBits - 1)
    let bytesToClear := hostBits / 8
    let minA := if bytesToClear > 0 then addr16 &&& ipv6ByteMask bytesToClear else addr16
    let minA := if hostBits % 8 ≠ 0 then ipv6ClearPartialByte minA hostBits else minA
    .ok (minA, maxA)

/-- `prefixToUint256Range`: family dispatch on `Is4`/`Is6`. -/
def prefixToUint256Range (isIPv4 : Bool) (addr : Nat) (bits : Nat) : Except Unit (Nat × Nat) :=
  if isIPv4 then ipv4PrefixToUint256Range addr bits else ipv6PrefixToUint256Range addr bits

/-- `isPowerOfTwo` of `validation.go`: `n ≠ 0 ∧ n &&& (n-1) = 0`. -/
def isPowerOfTwo (n : Nat) : Bool := !n == 0 && (n &&& (n - 1)) == 0

/-- The halving loop `for temp > 1, temp >>= 1` that both range-to-prefix
functions use to take a base-2 logarithm.  Faithful for `n < 2^fuel`; callers
pass fuel 256 (`uint256` values). -/
def halvingCountAux : Nat → Nat → Nat
  | 0, _ => 0
  | fuel + 1, n => if n > 1 then halvingCountAux fuel (n / 2) + 1 else 0

/-- Number of halvings of the size down to 1 (the log2 of a power of two). -/
def halvingCount (n : Nat) : Nat := halvingCountAux 256 n

/-- `uint256RangeToIPv4Prefix` of `validation.go`: the partial range-to-prefix
conversion.  Returns the `(address, bits)` of the canonical prefix.  Go reads
`minVal.Uint64()`, which truncates a `uint256` to its low 64 bits, modelled by
`% 2^64`; the complement of the 32-bit mask is taken within `uint32`. -/
def uint256RangeToIPv4Prefix (minVal maxVal : Nat) : Except Unit (Nat × Nat) :=
  if minVal > maxVal then .error ()
  else
    let minV := minVal % 2 ^ 64
    let maxV := maxVal % 2 ^ 64
    if minV > 0xFFFFFFFF ∨ maxV > 0xFFFFFFFF then .error ()
    else if minV = maxV then .ok (minV, 32)
    else
      let rangeSize := maxV - minV + 1
      if (rangeSize &&& (rangeSize - 1)) ≠ 0 then .error ()
      else
        let prefixBits := 32 - halvingCount rangeSize
        let mask := (0xFFFFFFFF <<< (32 - prefixBits)) % 2 ^ 32
        let notMask := (2 ^ 32 - 1) ^^^ mask
        if (minV &&& notMask) ≠ 0 then .error ()
        else .ok (minV, prefixBits)

/-- `uint256RangeToIPv6Prefix` of `validation.go`.  The prefix address is the
low 16 bytes of min (`WriteToSlice` then the last 16 bytes); the size is
`max - min + 1` computed in `uint256` (wrapping modulo `2^256`).  The Go
`prefixBits` is an `int` that stays nonnegative whenever `max < 2^128` (the
only reachable case: for larger ranges Go would build an invalid
`netip.Prefix`); `Nat` subtraction models that reachable region. -/
def uint256RangeToIPv6Prefix (minVal maxVal : Nat) : Except Unit (Nat × Nat) :=
  if minVal > maxVal then .error ()
  else if minVal = maxVal then .ok (minVal % 2 ^ 128, 128)
  else
    let diff := (maxVal - minVal + 1) % 2 ^ 256
    if !isPowerOfTwo diff then .error ()
    else
      let prefixBits := 128 - halvingCount diff
      let hostBits := 128 - prefixBits
      if hostBits > 0 then
        let mask := 2 ^ hostBits - 1
        if (minVal &&& mask) ≠ 0 then .error ()
        else .ok (minVal % 2 ^ 128, prefixBits)
      else .ok (minVal % 2 ^ 128, prefixBits)

/-- `uint256RangeToPrefix`: family dispatch. -/
def uint256RangeToPrefix (isIPv4 : Bool) (minVal maxVal : Nat) : Except Unit (Nat × Nat) :=
  if isIPv4 then uint256RangeToIPv4Prefix minVal maxVal
  else uint256RangeToIPv6Prefix minVal maxVal

/-! ### Containment, adjacency, overlap and the merge pass -/

/-- `contains(outer, inner)`: `outer.Min ≤ inner.Min ∧ outer.Max ≥ inner.Max`. -/
def contains (outer inner : IPPrefix) : Bool :=
  decide (outer.min ≤ inner.min ∧ inner.max ≤ outer.max)

/-- `areAdjacent(a, b)`: `a.Max + 1 = b.Min ∨ b.Max + 1 = a.Min`. -/
def areAdjacent (a b : IPPrefix) : Bool :=
  decide (a.max + 1 = b.min ∨ b.max + 1 = a.min)

/-- `overlaps(a, b)`: `¬(a.Max < b.Min ∨ b.Max < a.Min)`. -/
def overlaps (a b : IPPrefix) : Bool :=
  !decide (a.max < b.min ∨ b.max < a.min)

/-- `canMergeToValidPrefix`: the range-to-prefix conversion succeeds. -/
def canMergeToValidPrefix (minVal maxVal : Nat) (isIPv4 : Bool) : Bool :=
  (uint256RangeToPrefix isIPv4 minVal maxVal).toOption.isSome

/-- `mergeAdjacent`: merge the union range of `a` and `b` when it forms a
valid CIDR.  Go reads the family from `a.Prefix.Addr().Is4()`; the embedding
passes the family of the sequence explicitly. -/
def mergeAdjacent (a b : IPPrefix) (isIPv4 : Bool) : Except Unit IPPrefix :=
  let minVal := if a.min ≤ b.min then a.min else b.min
  let maxVal := if a.max ≥ b.max then a.max else b.max
  match uint256RangeToPrefix isIPv4 minVal maxVal with
  | .error _ => .error ()
  | .ok (pa, pb) => .ok ⟨pa, pb, minVal, maxVal⟩

/-- `mergeOverlapping`: same body as `mergeAdjacent` in the source. -/
def mergeOverlapping (a b : IPPrefix) (isIPv4 : Bool) : Except Unit IPPrefix :=
  let minVal := if a.min ≤ b.min then a.min else b.min
  let maxVal := if a.max ≥ b.max then a.max else b.max
  match uint256RangeToPrefix isIPv4 minVal maxVal with
  | .error _ => .error ()
  | .ok (pa, pb) => .ok ⟨pa, pb, minVal, maxVal⟩

/-- One sweep of the merge loop inside `aggregatePrefixes`: the two-element
window walk that emits, drops and merges, returning the new list and the
`changed` flag. -/
def aggregateOnePass (isIPv4 : Bool) : List IPPrefix → List IPPrefix × Bool
  | [] => ([], false)
  | [x] => ([x], false)
  | cur :: next :: rest =>
    if contains cur next then
      let r := aggregateOnePass isIPv4 rest
      (cur :: r.1, true)
    else if contains next cur then
      let r := aggregateOnePass isIPv4 rest
      (next :: r.1, true)
    else if areAdjacent cur next then
      match mergeAdjacent cur next isIPv4 with
      | .ok merged =>
        let r := aggregateOnePass isIPv4 rest
        (merged :: r.1, true)
      | .error _ =>
        let r := aggregateOnePass isIPv4 (next :: rest)
        (cur :: r.1, r.2)
    else if overlaps cur next then
      match mergeOverlapping cur next isIPv4 with
      | .ok merged =>
        let r := aggregateOnePass isIPv4 rest
        (merged :: r.1, true)
      | .error _ =>
        let r := aggregateOnePass isIPv4 (next :: rest)
        (cur :: r.1, r.2)
    else
      let r := aggregateOnePass isIPv4 (next :: rest)
      (cur :: r.1, r.2)

/-- The `for changed && iterations < maxIterations` loop of
`aggregatePrefixes`; `fuel` is `maxIterations - iterations`, and exhausting it
is the divergence error the Go code reports after the loop. -/
def aggregateGo (isIPv4 : Bool) : Nat → Bool → List IPPrefix → Except Unit (List IPPrefix)
  | 0, _, _ => .error ()
  | _ + 1, false, l => .ok l
  | fuel + 1, true, l =>
    let r := aggregateOnePass isIPv4 l
    aggregateGo isIPv4 fuel r.2 r.1

/-- `aggregatePrefixes` with its `maxIterations = 5000` safety cap. -/
def aggregatePrefixes (isIPv4 : Bool) (l : List IPPrefix) : Except Unit (List IPPrefix) :=
  if l.length ≤ 1 then .ok l else aggregateGo isIPv4 5000 true l

/-! ### Sort and deduplicate -/

/-- Insertion of one element into a list sorted ascending by `Min`
(deterministic model of Go's unstable `sort.Slice` comparator). -/
def insertByMin (p : IPPrefix) : List IPPrefix → List IPPrefix
  | [] => [p]
  | q :: rest => if q.min ≤ p.min then q :: insertByMin p rest else p :: q :: rest

/-- Sort ascending by `Min`. -/
def sortByMin : List IPPrefix → List IPPrefix
  | [] => []
  | p :: rest => insertByMin p (sortByMin rest)

/-- `isDuplicatePrefix`: equal `Min` and `Max`. -/
def isDuplicatePrefix (a b : IPPrefix) : Bool := decide (a.min = b.min ∧ a.max = b.max)

/-- The write-index walk of `deduplicate`: drop entries equal to the last kept
entry. -/
def dedupAux (last : IPPrefix) : List IPPrefix → List IPPrefix
  | [] => []
  | c :: rest => if isDuplicatePrefix c last then dedupAux last rest else c :: dedupAux c rest

/-- `deduplicate`: remove entries with the `(Min, Max)` of the last kept one. -/
def deduplicate : List IPPrefix → List IPPrefix
  | [] => []
  | x :: rest => x :: dedupAux x rest

/-- `sortAndDeduplicateIPv4`/`IPv6` on one family list (the Go receivers
differ only in which field they touch). -/
def sortAndDeduplicate (l : List IPPrefix) : List IPPrefix :=
  if l = [] then l else deduplicate (sortByMin l)

/-! ### Minimum-length enforcement -/

/-- `netip.Addr.Prefix(b)` zeroes the host bits of the address. -/
def maskToLen (isIPv4 : Bool) (a : Nat) (b : Nat) : Nat :=
  a - a % 2 ^ (widthOf isIPv4 - b)

/-- `roundUpToMinLength`: replace a prefix more specific than `minLength` by
the covering prefix of that length (`addr.Prefix(minLength)` masks the
address, then the range is recomputed); `netip.Addr.Prefix` fails when the
length exceeds the family width. -/
def roundUpToMinLength (isIPv4 : Bool) (p : IPPrefix) (minLength : Nat) : Except Unit IPPrefix :=
  if p.bits ≤ minLength then .ok p
  else if minLength > widthOf isIPv4 then .error ()
  else
    match prefixToUint256Range isIPv4 (maskToLen isIPv4 p.addr minLength) minLength with
    | .error _ => .error ()
    | .ok (mn, mx) => .ok ⟨maskToLen isIPv4 p.addr minLength, minLength, mn, mx⟩

/-- The per-entry walk of `enforceMinPrefixLengthIPv4`/`IPv6`: entries with
`Bits() ≥ floor` are rounded up, others pass through. -/
def enforceMinList (isIPv4 : Bool) (floor : Nat) : List IPPrefix → Except Unit (List IPPrefix)
  | [] => .ok []
  | p :: rest =>
    if p.bits ≥ floor then
      match roundUpToMinLength isIPv4 p floor with
      | .error _ => .error ()
      | .ok r =>
        match enforceMinList isIPv4 floor rest with
        | .error _ => .error ()
        | .ok rs => .ok (r :: rs)
    else
      match enforceMinList isIPv4 floor rest with
      | .error _ => .error ()
      | .ok rs => .ok (p :: rs)

/-- `enforceMinPrefixLengthIPv4`/`IPv6` on one family list: a zero floor and
an empty list are no-ops. -/
def enforceMinLength (isIPv4 : Bool) (floor : Nat) (l : List IPPrefix) :
    Except Unit (List IPPrefix) :=
  if floor = 0 ∨ l = [] then .ok l else enforceMinList isIPv4 floor l

/-! ### The range decomposer (`createOptimalPrefixes`) -/

/-- The bit-counting loop of `countTrailingZeros`. -/
def ctzAux : Nat → Nat → Nat → Nat
  | 0, _, count => count
  | fuel + 1, temp, count =>
    if temp % 2 = 0 then ctzAux fuel (temp / 2) (count + 1) else count

/-- `countTrailingZeros`: trailing zero bits of `n` within the family width
(`n = 0` yields the width; the loop also stops at the width). -/
def countTrailingZeros (n : Nat) (isIPv4 : Bool) : Nat :=
  if n = 0 then widthOf isIPv4 else ctzAux (widthOf isIPv4) n 0

/-- The `for prefixLen := 0; prefixLen <= maxBits` loop of
`findLargestValidPrefix`: skip lengths finer than the alignment allows, build
the masked prefix, convert it and accept the first one that starts at `start`
and stays within `maxAllowed`.  `fuel` is `maxBits + 1 - prefixLen`. -/
def flvpGo (isIPv4 : Bool) (start maxAllowed tz : Nat) : Nat → Nat → Option (IPPrefix × Nat)
  | 0, _ => none
  | fuel + 1, prefixLen =>
    let maxBits := widthOf isIPv4
    if maxBits - prefixLen > tz then flvpGo isIPv4 start maxAllowed tz fuel (prefixLen + 1)
    else
      let pAddr := maskToLen isIPv4 (start % 2 ^ maxBits) prefixLen
      match prefixToUint256Range isIPv4 pAddr prefixLen with
      | .error _ => flvpGo isIPv4 start maxAllowed tz fuel (prefixLen + 1)
      | .ok (pMin, pMax) =>
        if pMin = start ∧ pMax ≤ maxAllowed then some (⟨pAddr, prefixLen, pMin, pMax⟩, pMax)
        else flvpGo isIPv4 start maxAllowed tz fuel (prefixLen + 1)

/-- `findLargestValidPrefix`: the largest CIDR block starting at `start` that
does not exceed `maxAllowed`; the fallback host route is the Go fallback after
the loop.  (The Go error returns — an invalid address from 4 or 16 raw bytes —
are unreachable and dropped.) -/
def findLargestValidPrefix (isIPv4 : Bool) (start maxAllowed : Nat) : IPPrefix × Nat :=
  let maxBits := widthOf isIPv4
  let tz := countTrailingZeros start isIPv4
  match flvpGo isIPv4 start maxAllowed tz (maxBits + 1) 0 with
  | some r => r
  | none => (⟨start % 2 ^ maxBits, maxBits, start, start⟩, start)

/-- The `for current ≤ max` loop of `createOptimalPrefixes`.  The Go loop
terminates because each emitted block ends at or after `current`; the explicit
fuel (chosen sufficient by the caller) keeps the recursion structural. -/
def createOptimalGo (isIPv4 : Bool) (maxVal : Nat) : Nat → Nat → List IPPrefix
  | 0, _ => []
  | fuel + 1, current =>
    if current ≤ maxVal then
      let r := findLargestValidPrefix isIPv4 current maxVal
      if r.2 ≥ maxVal then [r.1]
      else r.1 :: createOptimalGo isIPv4 maxVal fuel (r.2 + 1)
    else []

/-- `createOptimalPrefixes`: minimal CIDR cover of `[min, max]`. -/
def createOptimalPrefixes (isIPv4 : Bool) (minVal maxVal : Nat) : List IPPrefix :=
  createOptimalGo isIPv4 maxVal (maxVal + 1 - minVal) minVal

/-- `createComplement`: the optimal prefixes of `container \ exclude` — the
part before the exclusion and the part after it. -/
def createComplement (container exclude : IPPrefix) (isIPv4 : Bool) : List IPPrefix :=
  (if container.min < exclude.min then
    createOptimalPrefixes isIPv4 container.min (exclude.min - 1)
  else []) ++
  (if exclude.max < container.max then
    createOptimalPrefixes isIPv4 (exclude.max + 1) container.max
  else [])

/-- `trimOverlapNew`: the non-overlapping residue of `original` under a
partial overlap with `exclude`. -/
def trimOverlapNew (original exclude : IPPrefix) (isIPv4 : Bool) : List IPPrefix :=
  if exclude.min ≤ original.min ∧ exclude.max < original.max then
    let resultMin := exclude.max + 1
    let resultMax := original.max
    if resultMin ≤ resultMax then createOptimalPrefixes isIPv4 resultMin resultMax else []
  else if exclude.min > original.min ∧ exclude.max ≥ original.max then
    let resultMin := original.min
    let resultMax := exclude.min - 1
    if resultMin ≤ resultMax then createOptimalPrefixes isIPv4 resultMin resultMax else []
  else []

/-- `processExclusionNew`: rebuild each overlapping prefix against the
exclusion (drop, split into the complement, trim, or keep). -/
def processExclusionNew (e : IPPrefix) (isIPv4 : Bool) : List IPPrefix → List IPPrefix
  | [] => []
  | o :: rest =>
    if contains e o then processExclusionNew e isIPv4 rest
    else if contains o e then
      createComplement o e isIPv4 ++ processExclusionNew e isIPv4 rest
    else if overlaps e o then
      trimOverlapNew o e isIPv4 ++ processExclusionNew e isIPv4 rest
    else o :: processExclusionNew e isIPv4 rest

/-! ### Binary search over the sorted sequence (`findOverlappingPrefixes`) -/

/-- The binary-search loop of `findOverlappingPrefixes`: the rightmost index
whose `Min ≤ targetMax`, or `-1`.  Indices are Go `int`s; the fuel (chosen as
`length + 2` by the caller) bounds the halving loop. -/
def binSearchGo (l : List IPPrefix) (targetMax : Nat) :
    Nat → Int → Int → Int → Int
  | 0, _, _, firstPossible => firstPossible
  | fuel + 1, left, right, firstPossible =>
    if left ≤ right then
      let mid := left + (right - left) / 2
      if (l.getD mid.toNat dfltPfx).min ≤ targetMax then
        binSearchGo l targetMax fuel (mid + 1) right mid
      else
        binSearchGo l targetMax fuel left (mid - 1) firstPossible
    else firstPossible

/-- The backwards scan of `findOverlappingPrefixes` from index `i` down to 0:
stop at the first entry with `Max < target.Min`, collect the overlapping ones
(in decreasing index order, as the Go loop appends them). -/
def scanBack (l : List IPPrefix) (t : IPPrefix) : Nat → List IPPrefix
  | 0 =>
    let p := l.getD 0 dfltPfx
    if p.max < t.min then [] else if overlaps t p then [p] else []
  | i + 1 =>
    let p := l.getD (i + 1) dfltPfx
    if p.max < t.min then []
    else (if overlaps t p then [p] else []) ++ scanBack l t i

/-- `findOverlappingPrefixes`: binary search for the rightmost candidate, scan
left collecting overlaps, reverse to restore ascending order. -/
def findOverlappingPrefixes (t : IPPrefix) (l : List IPPrefix) : List IPPrefix :=
  if l = [] then []
  else
    let firstPossible := binSearchGo l t.max (l.length + 2) 0 (l.length - 1 : Int) (-1)
    if firstPossible = -1 then []
    else (scanBack l t firstPossible.toNat).reverse

/-- `replacePrefixesInList`: drop the replaced entries, append the new ones,
re-sort by `Min`.  Go keys the removal set on pointer identity; list entries
are pairwise distinct in every reachable call, so removal by value agrees. -/
def replacePrefixesInList (originalList toReplace newPrefixes : List IPPrefix) :
    List IPPrefix :=
  sortByMin (originalList.filter (fun p => !toReplace.contains p) ++ newPrefixes)

/-! ### The exclusion engine -/

/-- `MinExclusionLenIPv4`/`IPv6`: the hard per-family floor. -/
def minExclusionLen (isIPv4 : Bool) : Nat := if isIPv4 then 32 else 128

/-- `RecommendedMinExclusionIPv4`/`IPv6`: the warning threshold. -/
def recommendedMinExclusion (isIPv4 : Bool) : Nat := if isIPv4 then 30 else 64

/-- The warning text of `processExclusionsIPv4New`/`IPv6New`; the Go message
interpolates the exclusion and the threshold, which the claims do not inspect,
so a fixed marker models it. -/
def exclusionWarning : String :=
  "WARNING: exclusion is more specific than recommended minimum"

/-- The shared body of `processExclusionsIPv4New` and `processExclusionsIPv6New`
(the two Go functions differ only in the family constants): walk the
exclusions, skip ones finer than the hard floor, warn past the recommended
floor, and splice the rebuilt prefixes over the overlapping ones. -/
def processExclusionsFamily (isIPv4 : Bool) :
    List IPPrefix → List IPPrefix × List String → List IPPrefix × List String
  | [], st => st
  | e :: rest, (l, w) =>
    if e.bits > minExclusionLen isIPv4 then processExclusionsFamily isIPv4 rest (l, w)
    else
      let w' := if e.bits > recommendedMinExclusion isIPv4 then w ++ [exclusionWarning] else w
      let overlapping := findOverlappingPrefixes e l
      if overlapping = [] then processExclusionsFamily isIPv4 rest (l, w')
      else
        let newPrefixes := processExclusionNew e isIPv4 overlapping
        processExclusionsFamily isIPv4 rest (replacePrefixesInList l overlapping newPrefixes, w')

/-! ### The aggregator entity -/

/-- The `PrefixAggregator` struct.  The mutex and the warning-handler callback
are concurrency plumbing outside the shallow embedding; `lastProcessTime` is a
wall-clock duration whose value `Aggregate` measures, modelled as a `Nat` that
`Aggregate` leaves unspecified apart from construction and `Reset`. -/
structure PrefixAggregator where
  IPv4Prefixes : List IPPrefix
  IPv6Prefixes : List IPPrefix
  IncludeIPv4 : List IPPrefix
  IncludeIPv6 : List IPPrefix
  ExcludeIPv4 : List IPPrefix
  ExcludeIPv6 : List IPPrefix
  MinPrefixLenIPv4 : Nat
  MinPrefixLenIPv6 : Nat
  originalCount : Nat
  lastProcessTime : Nat
  warnings : List String
deriving DecidableEq, Repr

/-- `NewPrefixAggregator`: the empty post-construction state. -/
def NewPrefixAggregator : PrefixAggregator :=
  { IPv4Prefixes := [], IPv6Prefixes := [], IncludeIPv4 := [], IncludeIPv6 := []
    ExcludeIPv4 := [], ExcludeIPv6 := [], MinPrefixLenIPv4 := 0, MinPrefixLenIPv6 := 0
    originalCount := 0, lastProcessTime := 0, warnings := [] }

/-- `Reset`: truncate the six prefix lists, zero the counter and the elapsed
time, clear the warnings.  (The Go method touches exactly these fields.) -/
def Reset (pa : PrefixAggregator) : PrefixAggregator :=
  { pa with IPv4Prefixes := [], IPv6Prefixes := [], IncludeIPv4 := [], IncludeIPv6 := []
            ExcludeIPv4 := [], ExcludeIPv6 := [], originalCount := 0
            lastProcessTime := 0, warnings := [] }

/-- `SetMinPrefixLength`: validate both floors before assigning; on a bad
argument the method returns the error with the receiver untouched.  The second
component is the returned `error` (`some ()` for non-nil). -/
def SetMinPrefixLength (pa : PrefixAggregator) (ipv4Len ipv6Len : Int) :
    PrefixAggregator × Option Unit :=
  if ipv4Len < 0 ∨ ipv4Len > 32 then (pa, some ())
  else if ipv6Len < 0 ∨ ipv6Len > 128 then (pa, some ())
  else ({ pa with MinPrefixLenIPv4 := ipv4Len.toNat, MinPrefixLenIPv6 := ipv6Len.toNat }, none)

/-- One entry of a setter's input as `parseIPPrefix` resolves it: an error, or
a parsed prefix with its `Is4()` flag.  (`parseIPPrefix` itself is textual
parsing through `net/netip`, outside the shallow embedding; the setters are
embedded over the per-entry parse results.) -/
def ParsedEntry : Type := Except Unit (Bool × IPPrefix)

/-- The parse-and-append loop shared by `SetIncludePrefixes` and
`SetExcludePrefixes`: append each parsed prefix to the family list, stop with
the error on the first bad entry (the lists keep what was appended so far). -/
def setPrefixesLoop : List ParsedEntry → List IPPrefix × List IPPrefix →
    (List IPPrefix × List IPPrefix) × Option Unit
  | [], st => (st, none)
  | .error _ :: _, st => (st, some ())
  | .ok (true, p) :: rest, (l4, l6) => setPrefixesLoop rest (l4 ++ [p], l6)
  | .ok (false, p) :: rest, (l4, l6) => setPrefixesLoop rest (l4, l6 ++ [p])

/-- `SetIncludePrefixes`: truncate both include lists, then parse and append
each entry, failing fast on the first bad one. -/
def SetIncludePrefixes (pa : PrefixAggregator) (entries : List ParsedEntry) :
    PrefixAggregator × Option Unit :=
  let r := setPrefixesLoop entries ([], [])
  ({ pa with IncludeIPv4 := r.1.1, IncludeIPv6 := r.1.2 }, r.2)

/-- `SetExcludePrefixes`: truncate both exclude lists, then parse and append
each entry, failing fast on the first bad one. -/
def SetExcludePrefixes (pa : PrefixAggregator) (entries : List ParsedEntry) :
    PrefixAggregator × Option Unit :=
  let r := setPrefixesLoop entries ([], [])
  ({ pa with ExcludeIPv4 := r.1.1, ExcludeIPv6 := r.1.2 }, r.2)

/-- `Aggregate`: clear warnings; append the includes (`processInclusions`);
enforce the minimum lengths; sort and deduplicate both families; run the merge
fixed point; process the exclusions (`processExclusionsNew`); final sort and
deduplicate.  Fails fast on any sub-step failure. -/
def Aggregate (pa : PrefixAggregator) : Except Unit PrefixAggregator := do
  let pa := { pa with warnings := [] }
  let pa := { pa with IPv4Prefixes := pa.IPv4Prefixes ++ pa.IncludeIPv4
                      IPv6Prefixes := pa.IPv6Prefixes ++ pa.IncludeIPv6 }
  let l4 ← enforceMinLength true pa.MinPrefixLenIPv4 pa.IPv4Prefixes
  let l6 ← enforceMinLength false pa.MinPrefixLenIPv6 pa.IPv6Prefixes
  let l4 := sortAndDeduplicate l4
  let l6 := sortAndDeduplicate l6
  let l4 ← aggregatePrefixes true l4
  let l6 ← aggregatePrefixes false l6
  let r4 := processExclusionsFamily true pa.ExcludeIPv4 (l4, pa.warnings)
  let r6 := processExclusionsFamily false pa.ExcludeIPv6 (l6, r4.2)
  let l4 := sortAndDeduplicate r4.1
  let l6 := sortAndDeduplicate r6.1
  return { pa with IPv4Prefixes := l4, IPv6Prefixes := l6, warnings := r6.2 }

/-! ### Family projections (used to state per-family claims once) -/

/-- The family's aggregated sequence. -/
def famPrefixes (isIPv4 : Bool) (pa : PrefixAggregator) : List IPPrefix :=
  if isIPv4 then pa.IPv4Prefixes else pa.IPv6Prefixes

/-- The family's include set. -/
def famIncludes (isIPv4 : Bool) (pa : PrefixAggregator) : List IPPrefix :=
  if isIPv4 then pa.IncludeIPv4 else pa.IncludeIPv6

/-- The family's exclude set. -/
def famExcludes (isIPv4 : Bool) (pa : PrefixAggregator) : List IPPrefix :=
  if isIPv4 then pa.ExcludeIPv4 else pa.ExcludeIPv6

/-- The family's minimum-prefix-length floor. -/
def famFloor (isIPv4 : Bool) (pa : PrefixAggregator) : Nat :=
  if isIPv4 then pa.MinPrefixLenIPv4 else pa.MinPrefixLenIPv6

/-! ### Statement vocabulary -/

/-- The address set a prefix list covers: `x` lies in some entry's range. -/
def coversAddr (l : List IPPrefix) (x : Nat) : Prop :=
  ∃ p ∈ l, p.min ≤ x ∧ x ≤ p.max

instance (l : List IPPrefix) (x : Nat) : Decidable (coversAddr l x) :=
  inferInstanceAs (Decidable (∃ p ∈ l, _ ∧ _))

/-- A closed interval `[lo, hi]` that is a valid aligned CIDR block of a
family of width `w`: its size is a power of two no larger than the family
space and its base is aligned to that size. -/
def AlignedRange (w lo hi : Nat) : Prop :=
  ∃ h, h ≤ w ∧ 2 ^ h ∣ lo ∧ hi = lo + 2 ^ h - 1

/-- What `parseIPPrefix` guarantees for every stored entry — including the
misaligned ranges of the IPv6 conversion slip, whose `Min` keeps host bits
but whose `Max` still ends at a host-boundary: the length and the address fit
the family, the range is nonempty, ends inside the family space, and
`max + 1` is a multiple of the block size `2^(width - bits)`. -/
def ParsedShape (isIPv4 : Bool) (p : IPPrefix) : Prop :=
  p.bits ≤ widthOf isIPv4 ∧ p.addr < 2 ^ widthOf isIPv4 ∧ p.min ≤ p.max ∧
    p.max < 2 ^ widthOf isIPv4 ∧ 2 ^ (widthOf isIPv4 - p.bits) ∣ (p.max + 1)

instance (isIPv4 : Bool) (p : IPPrefix) : Decidable (ParsedShape isIPv4 p) :=
  inferInstanceAs (Decidable (_ ∧ _ ∧ _ ∧ _ ∧ _))

/-- The invariant the merge pipeline preserves under a floor `f`: the length
respects the floor, the range is nonempty, stays inside the family space and
ends one short of a multiple of the floor block size `2^(width-f)`. -/
def GoodEntry (isIPv4 : Bool) (f : Nat) (p : IPPrefix) : Prop :=
  p.bits ≤ f ∧ p.min ≤ p.max ∧ p.max < 2 ^ widthOf isIPv4 ∧
    2 ^ (widthOf isIPv4 - f) ∣ (p.max + 1)

/-- The `IPPrefix` record `parseIPPrefix` builds for an IPv4 input with
address value `a` and length `bits` (the parsed `netip.Prefix` plus the
computed range). -/
def parsedV4 (a bits : Nat) : IPPrefix :=
  match ipv4PrefixToUint256Range a bits with
  | .ok (mn, mx) => ⟨a, bits, mn, mx⟩
  | .error _ => ⟨a, bits, 0, 0⟩

/-- The `IPPrefix` record `parseIPPrefix` builds for an IPv6 input with
address value `a` and length `bits`. -/
def parsedV6 (a bits : Nat) : IPPrefix :=
  match ipv6PrefixToUint256Range a bits with
  | .ok (mn, mx) => ⟨a, bits, mn, mx⟩
  | .error _ => ⟨a, bits, 0, 0⟩

/-- An aggregator loaded with the two valid IPv6 prefixes `::400/118` and
`::500/116` (the second carries host bits, which `netip.ParsePrefix`
accepts). -/
def unalignedV6State : PrefixAggregator :=
  { NewPrefixAggregator with
      IPv6Prefixes := [parsedV6 0x400 118, parsedV6 0x500 116] }

/-- The same two primaries with the exclusions `::f00/120` and `::640/122`
configured. -/
def exclusionBugState : PrefixAggregator :=
  { unalignedV6State with
      ExcludeIPv6 := [parsedV6 0xF00 120, parsedV6 0x640 122] }

/-- An aggregator with the IPv4 floor 24, the primary `10.0.0.0/24` and the
exclusion `10.0.0.0/25`. -/
def floorExclusionState : PrefixAggregator :=
  { NewPrefixAggregator with
      MinPrefixLenIPv4 := 24
      IPv4Prefixes := [parsedV4 0x0A000000 24]
      ExcludeIPv4 := [parsedV4 0x0A000000 25] }

/-- An aggregator with the IPv6 floor 116, the primaries `::400/118` and
`::500/116` (the second stored with a misaligned min by the conversion slip)
and no exclusions. -/
def c3WitnessState : PrefixAggregator :=
  { NewPrefixAggregator with
      MinPrefixLenIPv6 := 116
      IPv6Prefixes := [parsedV6 0x400 118, parsedV6 0x500 116] }

/-- What `Aggregate` returns on `c3WitnessState`: both primaries rounded up
to the floor and merged into the single block `::/116`. -/
def c3WitnessOut : PrefixAggregator :=
  { c3WitnessState with
      IPv6Prefixes := [⟨0, 116, 0, 4095⟩] }

/-- Split a list of parsed prefixes into the IPv4 and IPv6 ones, keeping
order — what a fully successful setter stores. -/
def partitionParsed (goods : List (Bool × IPPrefix)) : List IPPrefix × List IPPrefix :=
  (goods.filterMap (fun g => if g.1 then some g.2 else none),
   goods.filterMap (fun g => if g.1 then none else some g.2))

/-- An aggregator that already has a configured include and exclude set
(used to exhibit what a failed setter call destroys). -/
def c6PriorState : PrefixAggregator :=
  { NewPrefixAggregator with
      IncludeIPv4 := [parsedV4 0x0A000000 8]
      ExcludeIPv4 := [parsedV4 0xC0A80000 16] }

/-! ## Claim theorems and supporting lemmas -/

/-- C8: prefix-to-range conversion is claimed to return
`min = addr & ~((1 << h) - 1)` with the low `h` host bits of `min` zero, for
every address value including those with nonzero host bits and leading zero
bytes.  The IPv6 conversion violates this: for the valid prefix `::1/126`
(address 1, `h = 2`) it returns `min = 1` — the host bits survive because the
partial-byte clearing step indexes the minimal-length `Bytes()` slice at a
position computed for the full 16-byte layout, and for any address below
`2^120` that index is out of range, so the clearing is skipped. -/
theorem C8_prefix_range_fails :
    ipv6PrefixToUint256Range 1 126 = .ok (1, 3) ∧ (1 : Nat) % 2 ^ (128 - 126) ≠ 0 := by
  constructor
  · rfl
  · decide

/-- C2: after a successful `Aggregate`, output ranges of one family are
claimed pairwise disjoint.  On the valid input `::400/118`, `::500/116` the
parsed range of the second prefix is the misaligned `[1280, 4095]` (the C8
slip), `Aggregate` succeeds, and the two prefixes it outputs overlap:
`[1024, 2047]` and `[1280, 4095]`. -/
theorem C2_disjointness_fails :
    (Aggregate unalignedV6State).toOption.map
        (fun st => st.IPv6Prefixes.map (fun p => (p.min, p.max))) =
      some [(1024, 2047), (1280, 4095)] ∧
    ¬ ((2047 : Nat) < 1280 ∨ (4095 : Nat) < 1024) := by
  constructor
  · rfl
  · decide

/-- C1: the union of the output ranges is claimed to equal the input union
minus every exclusion within the family width.  On `exclusionBugState` the
exclusion `::640/122` (range `[0x640, 0x67F]`, length 122 ≤ 128) is missed:
the misaligned range stored for `::500/116` makes the aggregated sequence
overlap, the binary-search scan of `findOverlappingPrefixes` then stops
before the covering prefix, and the output still covers the excluded address
`::640`. -/
theorem C1_cover_equivalence_fails :
    (Aggregate exclusionBugState).toOption.map
        (fun st => decide (coversAddr st.IPv6Prefixes 0x640)) = some true ∧
    decide (coversAddr exclusionBugState.ExcludeIPv6 0x640) = true ∧
    exclusionBugState.ExcludeIPv6.all (fun e => decide (e.bits ≤ 128)) = true := by
  refine ⟨by rfl, by decide, by decide⟩

/-- C4: a second `Aggregate` immediately after a successful one is claimed to
reproduce the same output sequences.  On `exclusionBugState` both runs
succeed but differ: the first run leaves the overlapping prefix `[1024, 2047]`
(with the missed exclusion) next to the fragments of `[1280, 4095]`, and the
second run re-merges those fragments and re-applies the exclusions to the
changed sequence, producing a different list. -/
theorem C4_idempotence_fails :
    (match Aggregate exclusionBugState with
     | .ok s1 =>
       match Aggregate s1 with
       | .ok s2 => decide (s1.IPv6Prefixes ≠ s2.IPv6Prefixes)
       | .error _ => false
     | .error _ => false) = true := by decide

/-- C5 (counterexample): `Reset` is claimed to return every field to the
post-construction state; it leaves the minimum-prefix-length floors alone, so
after `SetMinPrefixLength(24, _)` a reset aggregator differs from a new
one. -/
theorem C5_reset_counterexample :
    Reset { NewPrefixAggregator with MinPrefixLenIPv4 := 24 } ≠ NewPrefixAggregator := by
  decide

/-- C5 (amended): `Reset` returns the two prefix sequences, the include and
exclude sets, the original-input counter, the last processing time and the
warnings buffer to their post-construction values, but keeps both
minimum-prefix-length floors. -/
theorem C5_reset_amended (pa : PrefixAggregator) :
    Reset pa = { NewPrefixAggregator with
                   MinPrefixLenIPv4 := pa.MinPrefixLenIPv4
                   MinPrefixLenIPv6 := pa.MinPrefixLenIPv6 } := rfl

/-- The parse-and-append loop consumes successfully parsed entries into the
two family lists and stops with the error at the first bad entry. -/
theorem setPrefixesLoop_ok_append (goods : List (Bool × IPPrefix))
    (rest : List ParsedEntry) (acc : List IPPrefix × List IPPrefix) :
    setPrefixesLoop (goods.map .ok ++ .error () :: rest) acc =
      ((acc.1 ++ (partitionParsed goods).1, acc.2 ++ (partitionParsed goods).2), some ()) := by
  induction goods generalizing acc with
  | nil => simp [setPrefixesLoop, partitionParsed]
  | cons g gs ih =>
    obtain ⟨fam, p⟩ := g
    cases fam <;>
      simp [setPrefixesLoop, ih, partitionParsed, List.filterMap_cons]

/-- C6 (counterexample): a failed `SetIncludePrefixes` call is claimed to
leave the previously configured include set intact; the method truncates both
include lists before parsing, so after the failed call the prior include set
is gone. -/
theorem C6_setters_counterexample :
    (SetIncludePrefixes c6PriorState [(.error () : ParsedEntry)]).2 = some () ∧
    (SetIncludePrefixes c6PriorState [(.error () : ParsedEntry)]).1.IncludeIPv4 ≠
      c6PriorState.IncludeIPv4 := by
  constructor
  · rfl
  · decide

/-- C6 (amended): each setter returns an error upon the first bad input.
`SetMinPrefixLength` validates before assigning and leaves the aggregator
unchanged on failure; `SetIncludePrefixes` and `SetExcludePrefixes`, however,
first clear the corresponding sets and keep exactly the entries parsed before
the bad one, so the prior include/exclude sets are not preserved (the rest of
the aggregator is unchanged). -/
theorem C6_setters_amended :
    (∀ (pa : PrefixAggregator) (a b : Int), ¬ (0 ≤ a ∧ a ≤ 32 ∧ 0 ≤ b ∧ b ≤ 128) →
      SetMinPrefixLength pa a b = (pa, some ())) ∧
    (∀ (pa : PrefixAggregator) (goods : List (Bool × IPPrefix)) (rest : List ParsedEntry),
      SetIncludePrefixes pa (goods.map .ok ++ .error () :: rest) =
        ({ pa with IncludeIPv4 := (partitionParsed goods).1
                   IncludeIPv6 := (partitionParsed goods).2 }, some ())) ∧
    (∀ (pa : PrefixAggregator) (goods : List (Bool × IPPrefix)) (rest : List ParsedEntry),
      SetExcludePrefixes pa (goods.map .ok ++ .error () :: rest) =
        ({ pa with ExcludeIPv4 := (partitionParsed goods).1
                   ExcludeIPv6 := (partitionParsed goods).2 }, some ())) := by
  refine ⟨fun pa a b h => ?_, fun pa goods rest => ?_, fun pa goods rest => ?_⟩
  · unfold SetMinPrefixLength
    split
    · rfl
    · split
      · rfl
      · omega
  · simp [SetIncludePrefixes, setPrefixesLoop_ok_append]
  · simp [SetExcludePrefixes, setPrefixesLoop_ok_append]

/-- A defaulted list access within bounds is a member. -/
theorem getD_mem_of_lt {α : Type _} {l : List α} {i : Nat} {d : α} (h : i < l.length) :
    l.getD i d ∈ l := by
  rw [List.getD_eq_getElem?_getD, List.getElem?_eq_getElem h]
  exact List.getElem_mem h

/-- The binary-search loop answers `-1` or an index of the list. -/
theorem binSearchGo_range (l : List IPPrefix) (tm : Nat) :
    ∀ (fuel : Nat) (left right fp : Int), 0 ≤ left → right ≤ (l.length : Int) - 1 →
      (fp = -1 ∨ (0 ≤ fp ∧ fp < (l.length : Int))) →
      (binSearchGo l tm fuel left right fp = -1 ∨
        (0 ≤ binSearchGo l tm fuel left right fp ∧
          binSearchGo l tm fuel left right fp < (l.length : Int))) := by
  intro fuel
  induction fuel with
  | zero => intro _ _ fp _ _ hfp; exact hfp
  | succ n ih =>
    intro left right fp hl hr hfp
    rw [binSearchGo]
    split
    · next hlr =>
      dsimp only
      split
      · exact ih _ _ _ (by omega) hr (Or.inr (by omega))
      · exact ih _ _ _ hl (by omega) hfp
    · exact hfp

/-- When no entry of the list overlaps the target, the backwards scan
collects nothing. -/
theorem scanBack_of_disjoint (l : List IPPrefix) (t : IPPrefix)
    (hdisj : ∀ p ∈ l, overlaps t p = false) :
    ∀ i, i < l.length → scanBack l t i = [] := by
  intro i
  induction i with
  | zero =>
    intro hi
    have hmem : l.getD 0 dfltPfx ∈ l := getD_mem_of_lt hi
    rw [scanBack]
    split
    · rfl
    · rw [hdisj _ hmem]
      rfl
  | succ j ih =>
    intro hi
    have hmem : l.getD (j + 1) dfltPfx ∈ l := getD_mem_of_lt hi
    rw [scanBack]
    split
    · rfl
    · rw [hdisj _ hmem, ih (by omega)]
      rfl

/-- `findOverlappingPrefixes` of a target disjoint from every entry is
empty. -/
theorem findOverlappingPrefixes_of_disjoint (t : IPPrefix) (l : List IPPrefix)
    (hdisj : ∀ p ∈ l, overlaps t p = false) :
    findOverlappingPrefixes t l = [] := by
  rw [findOverlappingPrefixes]
  split
  · rfl
  · next hne =>
    have hlen : 0 < l.length := List.length_pos.mpr hne
    have hrange := binSearchGo_range l t.max (l.length + 2) 0 ((l.length : Int) - 1) (-1)
      (by omega) (by omega) (Or.inl rfl)
    dsimp only
    split
    · rfl
    · next hfp =>
      rcases hrange with h | ⟨h0, hlt⟩
      · exact absurd h hfp
      · rw [scanBack_of_disjoint l t hdisj _ (by omega)]
        rfl

/-- Disjoint bit ranges make OR into addition: a multiple of `2^k` or-ed with
a value below `2^k`. -/
theorem or_eq_add_of_dvd {a b k : Nat} (hdvd : 2 ^ k ∣ a) (hb : b < 2 ^ k) :
    a ||| b = a + b := by
  obtain ⟨q, rfl⟩ := hdvd
  exact (Nat.mul_add_lt_is_or hb q).symm

/-- A value whose low `s` bits are clear and which fits below `2^(s+t)` is
unchanged by the AND mask of ones in positions `s..s+t-1`. -/
theorem and_ones_window_eq_self {a s t : Nat} (hdvd : 2 ^ s ∣ a)
    (hlt : a < 2 ^ (s + t)) : a &&& ((2 ^ t - 1) * 2 ^ s) = a := by
  have hmask : (2 ^ t - 1) * 2 ^ s = (2 ^ t - 1) <<< s := by
    rw [Nat.shiftLeft_eq]
  rw [hmask]
  apply Nat.eq_of_testBit_eq
  intro j
  rw [Nat.testBit_and, Nat.testBit_shiftLeft, Nat.testBit_two_pow_sub_one]
  rcases lt_or_le j s with hj | hj
  · have hlow : a.testBit j = false := by
      have hmod : a % 2 ^ s = 0 := Nat.mod_eq_zero_of_dvd hdvd
      have := Nat.testBit_mod_two_pow a s j
      rw [hmod] at this
      simp only [Nat.zero_testBit] at this
      have hj' : decide (j < s) = true := by simp [hj]
      rw [hj'] at this
      simpa using this.symm
    simp [hlow]
  · rcases lt_or_le j (s + t) with hj2 | hj2
    · have : decide (s ≤ j) = true := by simp [hj]
      simp [this, hj, show j - s < t by omega]
    · have hhigh : a.testBit j = false :=
        Nat.testBit_lt_two_pow (lt_of_lt_of_le hlt (Nat.pow_le_pow_right (by omega) hj2))
      simp [hhigh]

/-- The wrapped shift `((2^w - 1) <<< h) % 2^w` is the mask of ones in
positions `h..w-1`. -/
theorem ones_shift_mod {w h : Nat} (hh : h ≤ w) :
    ((2 ^ w - 1) <<< h) % 2 ^ w = (2 ^ (w - h) - 1) * 2 ^ h := by
  rw [Nat.shiftLeft_eq]
  have hsplit : 2 ^ (w - h) * 2 ^ h = 2 ^ w := by
    rw [← Nat.pow_add]
    congr 1
    omega
  have h1 : 1 ≤ 2 ^ h := Nat.one_le_two_pow
  have h2 : 1 ≤ 2 ^ (w - h) := Nat.one_le_two_pow
  have key : (2 ^ w - 1) * 2 ^ h = 2 ^ w * (2 ^ h - 1) + (2 ^ (w - h) - 1) * 2 ^ h := by
    have e1 : (2 ^ w - 1) * 2 ^ h = 2 ^ w * 2 ^ h - 2 ^ h := by
      rw [Nat.sub_mul, Nat.one_mul]
    have e2 : (2 ^ (w - h) - 1) * 2 ^ h = 2 ^ w - 2 ^ h := by
      rw [Nat.sub_mul, Nat.one_mul, hsplit]
    have hle : 2 ^ h ≤ 2 ^ w := Nat.pow_le_pow_right (by omega) hh
    rw [e1, e2, Nat.mul_sub, Nat.mul_one]
    have hle2 : 2 ^ w ≤ 2 ^ w * 2 ^ h := Nat.le_mul_of_pos_right _ (by omega)
    omega
  rw [key, Nat.add_comm, Nat.add_mul_mod_self_left]
  apply Nat.mod_eq_of_lt
  have e2 : (2 ^ (w - h) - 1) * 2 ^ h = 2 ^ w - 2 ^ h := by
    rw [Nat.sub_mul, Nat.one_mul, hsplit]
  have hle : 2 ^ h ≤ 2 ^ w := Nat.pow_le_pow_right (by omega) hh
  omega

/-- XOR of the all-ones word with the high mask gives the low mask. -/
theorem xor_ones_high_mask {w k : Nat} (hk : k ≤ w) :
    (2 ^ w - 1) ^^^ ((2 ^ (w - k) - 1) * 2 ^ k) = 2 ^ k - 1 := by
  have hmask : (2 ^ (w - k) - 1) * 2 ^ k = (2 ^ (w - k) - 1) <<< k := by
    rw [Nat.shiftLeft_eq]
  rw [hmask]
  apply Nat.eq_of_testBit_eq
  intro j
  rw [Nat.testBit_xor, Nat.testBit_shiftLeft]
  simp only [Nat.testBit_two_pow_sub_one]
  rcases lt_or_le j k with hj | hj
  · simp [hj, show j < w by omega, show ¬ k ≤ j by omega]
  · rcases lt_or_le j w with hj2 | hj2
    · simp [hj, hj2, show j - k < w - k by omega, show ¬ j < k by omega]
    · simp [hj, show ¬ j < w by omega, show ¬ j - k < w - k by omega,
        show ¬ j < k by omega]

/-- Folding bytes onto an accumulator is positional notation base 256. -/
theorem bytesFold_acc (l : List Nat) :
    ∀ a, List.foldl (fun acc b => acc * 256 + b) a l = a * 256 ^ l.length + bytesBEToNat l := by
  induction l with
  | nil => intro a; simp [bytesBEToNat]
  | cons b bs ih =>
    intro a
    have hb : bytesBEToNat (b :: bs) = b * 256 ^ bs.length + bytesBEToNat bs := by
      show List.foldl _ (0 * 256 + b) bs = _
      rw [ih]
      ring_nf
    show List.foldl _ (a * 256 + b) bs = _
    rw [ih, hb, List.length_cons]
    ring

/-- `SetBytes` of a concatenation. -/
theorem bytesBEToNat_append (l1 l2 : List Nat) :
    bytesBEToNat (l1 ++ l2) = bytesBEToNat l1 * 256 ^ l2.length + bytesBEToNat l2 := by
  unfold bytesBEToNat
  rw [List.foldl_append]
  exact bytesFold_acc l2 _

/-- `SetBytes` of `n` bytes `0xFF`. -/
theorem bytesBEToNat_replicate_ff (n : Nat) :
    bytesBEToNat (List.replicate n 0xFF) = 2 ^ (8 * n) - 1 := by
  induction n with
  | zero => simp [bytesBEToNat]
  | succ m ih =>
    rw [List.replicate_succ]
    have : bytesBEToNat (255 :: List.replicate m 255) =
        255 * 256 ^ m + bytesBEToNat (List.replicate m 255) := by
      show List.foldl _ (0 * 256 + 255) _ = _
      rw [bytesFold_acc]
      simp [List.length_replicate]
    rw [this, ih]
    have h256 : (256 : Nat) ^ m = 2 ^ (8 * m) := by
      rw [show (256 : Nat) = 2 ^ 8 from rfl, ← Nat.pow_mul]
    have hpos : 1 ≤ 2 ^ (8 * m) := Nat.one_le_two_pow
    rw [h256]
    have : 2 ^ (8 * (m + 1)) = 256 * 2 ^ (8 * m) := by
      rw [show 8 * (m + 1) = 8 + 8 * m by ring, Nat.pow_add]
    omega

/-- `SetBytes` of zero bytes. -/
theorem bytesBEToNat_replicate_zero (n : Nat) :
    bytesBEToNat (List.replicate n 0) = 0 := by
  induction n with
  | zero => simp [bytesBEToNat]
  | succ m ih =>
    rw [List.replicate_succ]
    show List.foldl _ (0 * 256 + 0) _ = _
    simpa [bytesBEToNat] using ih

/-- The byte mask of `ipv6PrefixToUint256Range` is the window of ones in bit
positions `8*btc .. 127`. -/
theorem ipv6ByteMask_eq (btc : Nat) :
    ipv6ByteMask btc = (2 ^ (8 * (16 - btc)) - 1) * 2 ^ (8 * btc) := by
  unfold ipv6ByteMask
  rw [bytesBEToNat_append, bytesBEToNat_replicate_ff, bytesBEToNat_replicate_zero,
    List.length_replicate]
  rw [show (256 : Nat) = 2 ^ 8 from rfl, ← Nat.pow_mul]
  omega

/-- The byte expansion of a value below `256^k` has at most `k` bytes. -/
theorem natToBytesBEAux_length_le :
    ∀ (fuel n k : Nat), n < 256 ^ k → (natToBytesBEAux fuel n).length ≤ k := by
  intro fuel
  induction fuel with
  | zero => intro n k _; simp [natToBytesBEAux]
  | succ f ih =>
    intro n k hk
    rw [natToBytesBEAux]
    split
    · simp
    · next hn =>
      match k with
      | 0 => omega
      | k' + 1 =>
        have hdiv : n / 256 < 256 ^ k' := Nat.div_lt_of_lt_mul (by
          rw [← Nat.pow_succ']
          exact hk)
        have := ih (n / 256) k' hdiv
        simp only [List.length_append, List.length_cons, List.length_nil]
        omega

/-- Reading the byte expansion back yields the value. -/
theorem natToBytesBEAux_roundtrip :
    ∀ (fuel n : Nat), n < 256 ^ fuel → bytesBEToNat (natToBytesBEAux fuel n) = n := by
  intro fuel
  induction fuel with
  | zero => intro n h; interval_cases n; simp [natToBytesBEAux, bytesBEToNat]
  | succ f ih =>
    intro n h
    rw [natToBytesBEAux]
    split
    · simp_all [bytesBEToNat]
    · rw [bytesBEToNat_append]
      have hdiv : n / 256 < 256 ^ f := Nat.div_lt_of_lt_mul (by
        rw [← Nat.pow_succ']
        exact h)
      rw [ih _ hdiv]
      simp [bytesBEToNat]
      omega

/-- The byte of the expansion at distance `j` from its end is digit `j` of
the value in base 256. -/
theorem natToBytesBEAux_getD :
    ∀ (fuel n j : Nat), j < (natToBytesBEAux fuel n).length →
      (natToBytesBEAux fuel n).getD ((natToBytesBEAux fuel n).length - 1 - j) 0 =
        n / 256 ^ j % 256 := by
  intro fuel
  induction fuel with
  | zero => intro n j h; simp [natToBytesBEAux] at h
  | succ f ih =>
    intro n j hj
    by_cases hn : n = 0
    · rw [natToBytesBEAux, if_pos hn] at hj
      simp at hj
    · rw [natToBytesBEAux, if_neg hn] at hj ⊢
      set front := natToBytesBEAux f (n / 256) with hfront
      simp only [List.length_append, List.length_cons, List.length_nil] at hj ⊢
      match j with
      | 0 =>
        have hidx : front.length + 1 - 1 - 0 = front.length := by omega
        rw [hidx]
        rw [List.getD_eq_getElem?_getD, List.getElem?_append_right (by omega)]
        simp
      | j' + 1 =>
        have hj' : j' < front.length := by omega
        have hidx : front.length + 1 - 1 - (j' + 1) = front.length - 1 - j' := by omega
        rw [hidx]
        have hlt : front.length - 1 - j' < front.length := by omega
        rw [List.getD_eq_getElem?_getD, List.getElem?_append_left hlt,
          ← List.getD_eq_getElem?_getD]
        rw [ih (n / 256) j' hj']
        rw [Nat.div_div_eq_div_mul, ← Nat.pow_succ']

/-- Setting a position of a list to the value it already holds changes
nothing. -/
theorem set_getD_self {α : Type _} :
    ∀ (l : List α) (i : Nat) (d : α), i < l.length → l.set i (l.getD i d) = l := by
  intro l
  induction l with
  | nil => intro i d h; simp at h
  | cons x xs ih =>
    intro i d h
    match i with
    | 0 => simp
    | i' + 1 =>
      simp only [List.set_cons_succ, List.getD_cons_succ]
      rw [ih i' d (by simpa using h)]

/-- On a value whose low `h` bits are already zero the partial-byte clearing
step is the identity: the byte it would mask carries only host bits, which
are zero. -/
theorem ipv6ClearPartialByte_aligned {a h : Nat} (ha : a < 2 ^ 128)
    (hdvd : 2 ^ h ∣ a) (_hh : h ≤ 128) :
    ipv6ClearPartialByte a h = a := by
  unfold ipv6ClearPartialByte
  dsimp only
  split
  · next hlen =>
    set L := (natToBytesBE a).length with hLdef
    have hL16 : L ≤ 16 :=
      natToBytesBEAux_length_le 32 a 16 (by
        have : (256 : Nat) ^ 16 = 2 ^ 128 := by norm_num
        omega)
    have hbridge : (natToBytesBEAux 32 a).length = L := rfl
    set byteIndex := 15 - h / 8 with hBI
    have hBIlt : byteIndex < L := hlen
    set j := L - 1 - byteIndex with hjdef
    have hidx : L - 1 - j = byteIndex := by omega
    have hgetD : (natToBytesBE a).getD byteIndex 0 = a / 256 ^ j % 256 := by
      rw [← hidx]
      exact natToBytesBEAux_getD 32 a j (by omega)
    have hjh : 8 * j + h % 8 ≤ h := by omega
    set s := h % 8 with hs
    have hslt : s < 8 := Nat.mod_lt _ (by omega)
    have hxdvd : 2 ^ s ∣ a / 256 ^ j % 256 := by
      have h256 : (256 : Nat) ^ j = 2 ^ (8 * j) := by
        rw [show (256 : Nat) = 2 ^ 8 from rfl, ← Nat.pow_mul]
      obtain ⟨t, ht⟩ := hdvd
      have hsplit : (2 : Nat) ^ (8 * j) * 2 ^ (h - 8 * j) = 2 ^ h := by
        rw [← Nat.pow_add]
        congr 1
        omega
      have hquot : a / 256 ^ j = 2 ^ (h - 8 * j) * t := by
        rw [h256, ht, ← hsplit, Nat.mul_assoc,
          Nat.mul_div_cancel_left _ (Nat.pos_pow_of_pos _ (by omega))]
      rw [hquot]
      have hdvd8 : (2 : Nat) ^ s ∣ 2 ^ 8 := Nat.pow_dvd_pow 2 (by omega)
      rw [show (256 : Nat) = 2 ^ 8 from rfl]
      exact (Nat.dvd_mod_iff hdvd8).mpr
        (Dvd.dvd.mul_right (Nat.pow_dvd_pow 2 (by omega)) t)
    have hmaskval : (0xFF <<< s) % 256 = 2 ^ 8 - 2 ^ s := by
      rw [Nat.shiftLeft_eq]
      have he1 : 1 ≤ 2 ^ s := Nat.one_le_two_pow
      have he2 : 2 ^ s ≤ 128 := by
        calc 2 ^ s ≤ 2 ^ 7 := Nat.pow_le_pow_right (by omega) (by omega)
          _ = 128 := by norm_num
      omega
    have hand : a / 256 ^ j % 256 &&& (0xFF <<< s) % 256 = a / 256 ^ j % 256 := by
      rw [hmaskval, show (2 : Nat) ^ 8 - 2 ^ s = (2 ^ (8 - s) - 1) * 2 ^ s by
        rw [Nat.sub_mul, Nat.one_mul, ← Nat.pow_add]
        congr 2
        omega]
      exact and_ones_window_eq_self hxdvd (by
        rw [show s + (8 - s) = 8 by omega]
        exact Nat.mod_lt _ (by omega))
    rw [hgetD, hand, ← hgetD, set_getD_self _ _ _ hBIlt]
    exact natToBytesBEAux_roundtrip 32 a (by
      have : (2 : Nat) ^ 128 ≤ 256 ^ 32 := by norm_num
      omega)
  · rfl

/-- On an aligned address (host bits zero) the IPv6 conversion is exact:
it returns the block `[addr, addr + 2^h - 1]`. -/
theorem ipv6PrefixToUint256Range_aligned {a bits : Nat} (hbits : bits ≤ 128)
    (ha : a < 2 ^ 128) (hdvd : 2 ^ (128 - bits) ∣ a) :
    ipv6PrefixToUint256Range a bits = .ok (a, a + 2 ^ (128 - bits) - 1) := by
  have hone : (1 : Nat) ≤ 2 ^ (128 - bits) := Nat.one_le_two_pow
  by_cases h128 : bits = 128
  · subst h128
    simp [ipv6PrefixToUint256Range]
  · have hor : a ||| (2 ^ (128 - bits) - 1) = a + 2 ^ (128 - bits) - 1 := by
      have h1 := or_eq_add_of_dvd hdvd (show 2 ^ (128 - bits) - 1 < 2 ^ (128 - bits) by omega)
      omega
    unfold ipv6PrefixToUint256Range
    rw [if_neg (by omega), if_neg h128]
    dsimp only
    simp only [Except.ok.injEq, Prod.mk.injEq]
    constructor
    · -- the min computation is the identity on an aligned address
      have hand : a &&& ipv6ByteMask ((128 - bits) / 8) = a := by
        rw [ipv6ByteMask_eq]
        have hd8 : 2 ^ (8 * ((128 - bits) / 8)) ∣ a :=
          dvd_trans (Nat.pow_dvd_pow 2 (by omega)) hdvd
        have hcast : 8 * ((128 - bits) / 8) + 8 * (16 - (128 - bits) / 8) = 128 := by omega
        exact and_ones_window_eq_self hd8 (by rw [hcast]; exact ha)
      have hinner : (if (128 - bits) / 8 > 0
          then a &&& ipv6ByteMask ((128 - bits) / 8) else a) = a := by
        split
        · exact hand
        · rfl
      rw [hinner]
      split
      · exact ipv6ClearPartialByte_aligned ha hdvd (by omega)
      · rfl
    · -- the three 64-bit branches all build addr | (2^h - 1)
      split
      · next h64 =>
        split
        · next h64' =>
          split
          · next hs64 =>
            have hh : 128 - bits = 128 := by omega
            rw [Nat.lor_assoc, Nat.shiftLeft_eq]
            have hinner : (2 ^ 64 - 1) ||| (2 ^ 64 - 1) * 2 ^ 64 = 2 ^ 128 - 1 := by
              rw [Nat.lor_comm,
                or_eq_add_of_dvd (Dvd.intro_left _ rfl)
                  (show (2 : Nat) ^ 64 - 1 < 2 ^ 64 by omega)]
              norm_num
            rw [hinner]
            rw [hh] at hor ⊢
            exact hor
          · next hs64 =>
            rw [Nat.lor_assoc, Nat.shiftLeft_eq]
            have hinner : (2 ^ 64 - 1) |||
                (2 ^ (128 - bits - 64) - 1) * 2 ^ 64 = 2 ^ (128 - bits) - 1 := by
              rw [Nat.lor_comm,
                or_eq_add_of_dvd (Dvd.intro_left _ rfl)
                  (show (2 : Nat) ^ 64 - 1 < 2 ^ 64 by omega)]
              have hsub : (2 ^ (128 - bits - 64) - 1) * 2 ^ 64 =
                  2 ^ (128 - bits) - 2 ^ 64 := by
                rw [Nat.sub_mul, Nat.one_mul, ← Nat.pow_add]
                congr 2
                omega
              have hle : (2 : Nat) ^ 64 ≤ 2 ^ (128 - bits) :=
                Nat.pow_le_pow_right (by omega) (by omega)
              omega
            rw [hinner, hor]
        · next h64' =>
          have hh : 128 - bits = 64 := by omega
          rw [hh] at hor ⊢
          exact hor
      · exact hor

/-- On an aligned address the IPv4 conversion is exact. -/
theorem ipv4PrefixToUint256Range_aligned {a bits : Nat} (hbits : bits ≤ 32)
    (ha : a < 2 ^ 32) (hdvd : 2 ^ (32 - bits) ∣ a) :
    ipv4PrefixToUint256Range a bits = .ok (a, a + 2 ^ (32 - bits) - 1) := by
  have hone : (1 : Nat) ≤ 2 ^ (32 - bits) := Nat.one_le_two_pow
  by_cases h32 : bits = 32
  · subst h32
    simp [ipv4PrefixToUint256Range]
  · unfold ipv4PrefixToUint256Range
    rw [if_neg (by omega), if_neg h32]
    dsimp only
    simp only [Except.ok.injEq, Prod.mk.injEq]
    have hlit : (0xFFFFFFFF : Nat) = 2 ^ 32 - 1 := by norm_num
    have hmask : ((0xFFFFFFFF : Nat) <<< (32 - bits)) % 2 ^ 32 =
        (2 ^ (32 - (32 - bits)) - 1) * 2 ^ (32 - bits) := by
      rw [hlit]
      exact ones_shift_mod (by omega)
    have hand : a &&& ((0xFFFFFFFF : Nat) <<< (32 - bits)) % 2 ^ 32 = a := by
      rw [hmask]
      apply and_ones_window_eq_self hdvd
      rw [show 32 - bits + (32 - (32 - bits)) = 32 by omega]
      exact ha
    constructor
    · exact hand
    · rw [hand]
      have hadd := or_eq_add_of_dvd hdvd
        (show 2 ^ (32 - bits) - 1 < 2 ^ (32 - bits) by omega)
      by_cases hb0 : bits = 0
      · subst hb0
        have hones0 : ((1 : Nat) <<< (32 - 0)) % 2 ^ 32 + (2 ^ 32 - 1) = 2 ^ 32 - 1 := by
          rw [Nat.one_shiftLeft]
          norm_num
        rw [hones0]
        have hmod : ((2 : Nat) ^ 32 - 1) % 2 ^ 32 = 2 ^ 32 - 1 :=
          Nat.mod_eq_of_lt (by omega)
        rw [hmod]
        simp only [Nat.sub_zero] at hadd ⊢
        rw [hadd]
        omega
      · have hlt : (2 : Nat) ^ (32 - bits) < 2 ^ 32 := by
          apply Nat.pow_lt_pow_right (by omega)
          omega
        have hones1 : ((1 : Nat) <<< (32 - bits)) % 2 ^ 32 = 2 ^ (32 - bits) := by
          rw [Nat.one_shiftLeft]
          exact Nat.mod_eq_of_lt hlt
        rw [hones1]
        have hmod : (2 ^ (32 - bits) + (2 ^ 32 - 1)) % 2 ^ 32 = 2 ^ (32 - bits) - 1 := by
          rw [show (2 : Nat) ^ (32 - bits) + (2 ^ 32 - 1) =
            2 ^ 32 + (2 ^ (32 - bits) - 1) by omega, Nat.add_mod_left]
          exact Nat.mod_eq_of_lt (by omega)
        rw [hmod, hadd]
        omega

/-- On an aligned address the family-dispatched conversion is exact. -/
theorem prefixToUint256Range_aligned {isIPv4 : Bool} {a bits : Nat}
    (hbits : bits ≤ widthOf isIPv4) (ha : a < 2 ^ widthOf isIPv4)
    (hdvd : 2 ^ (widthOf isIPv4 - bits) ∣ a) :
    prefixToUint256Range isIPv4 a bits = .ok (a, a + 2 ^ (widthOf isIPv4 - bits) - 1) := by
  cases isIPv4
  · exact ipv6PrefixToUint256Range_aligned (by simpa [widthOf] using hbits)
      (by simpa [widthOf] using ha) (by simpa [widthOf] using hdvd)
  · exact ipv4PrefixToUint256Range_aligned (by simpa [widthOf] using hbits)
      (by simpa [widthOf] using ha) (by simpa [widthOf] using hdvd)

/-- The halving loop computes the exponent of a power of two. -/
theorem halvingCountAux_pow (k : Nat) :
    ∀ fuel, k ≤ fuel → halvingCountAux fuel (2 ^ k) = k := by
  induction k with
  | zero =>
    intro fuel _
    cases fuel <;> simp [halvingCountAux]
  | succ j ih =>
    intro fuel hf
    match fuel with
    | f + 1 =>
      rw [halvingCountAux]
      have hgt : 2 ^ (j + 1) > 1 := by
        have : (2 : Nat) ^ 1 ≤ 2 ^ (j + 1) := Nat.pow_le_pow_right (by omega) (by omega)
        omega
      rw [if_pos hgt]
      have hdiv : 2 ^ (j + 1) / 2 = 2 ^ j := by
        rw [Nat.pow_succ, Nat.mul_div_cancel _ (by omega)]
      rw [hdiv, ih f (by omega)]

/-- A positive value with `n &&& (n-1) = 0` is a power of two. -/
theorem pow_of_and_pred_eq_zero :
    ∀ n, 0 < n → n &&& (n - 1) = 0 → ∃ k, n = 2 ^ k := by
  intro n
  induction n using Nat.strong_induction_on with
  | _ n ih =>
    intro hpos hand
    match hn : n with
    | 1 => exact ⟨0, rfl⟩
    | m + 2 =>
      rcases Nat.even_or_odd (m + 2) with he | ho
      · obtain ⟨t, ht⟩ := he
        have ht2 : m + 2 = 2 * t := by omega
        have htpos : 0 < t := by omega
        have hdivtwo : (m + 2) / 2 = t := by omega
        have hpred : (m + 2 - 1) / 2 = t - 1 := by omega
        have hand2 : t &&& (t - 1) = 0 := by
          have := Nat.and_div_two (a := m + 2) (b := m + 2 - 1)
          rw [hand] at this
          rw [hdivtwo, hpred] at this
          simpa using this.symm
        obtain ⟨k, hk⟩ := ih t (by omega) htpos hand2
        exact ⟨k + 1, by rw [Nat.pow_succ]; omega⟩
      · obtain ⟨t, ht⟩ := ho
        have htpos : 0 < t := by omega
        have hdivtwo : (m + 2) / 2 = t := by omega
        have hpred : (m + 2 - 1) / 2 = t := by omega
        have : t &&& t = 0 := by
          have := Nat.and_div_two (a := m + 2) (b := m + 2 - 1)
          rw [hand] at this
          rw [hdivtwo, hpred] at this
          simpa using this.symm
        rw [Nat.and_self] at this
        omega

/-- What a successful IPv4 range-to-prefix conversion guarantees: the address
is the range base, and `[mn, mx]` is the aligned block of size
`2^(32 - bits)`. -/
theorem uint256RangeToIPv4Prefix_ok {mn mx a b : Nat} (hmn : mn ≤ mx)
    (hmx : mx < 2 ^ 32) (hok : uint256RangeToIPv4Prefix mn mx = .ok (a, b)) :
    a = mn ∧ b ≤ 32 ∧ mx + 1 - mn = 2 ^ (32 - b) ∧ 2 ^ (32 - b) ∣ mn := by
  unfold uint256RangeToIPv4Prefix at hok
  rw [if_neg (by omega)] at hok
  have hmn64 : mn % 2 ^ 64 = mn := Nat.mod_eq_of_lt (by
    have : (2 : Nat) ^ 32 < 2 ^ 64 := by norm_num
    omega)
  have hmx64 : mx % 2 ^ 64 = mx := Nat.mod_eq_of_lt (by
    have : (2 : Nat) ^ 32 < 2 ^ 64 := by norm_num
    omega)
  rw [hmn64, hmx64] at hok
  rw [if_neg (by
    push_neg
    constructor <;> omega)] at hok
  by_cases heq : mn = mx
  · rw [if_pos heq] at hok
    simp only [Except.ok.injEq, Prod.mk.injEq] at hok
    obtain ⟨ha, hb⟩ := hok
    subst ha
    subst hb
    refine ⟨rfl, by omega, by omega, by simp⟩
  · rw [if_neg heq] at hok
    dsimp only at hok
    split at hok
    · exact absurd hok (by simp)
    · next hpow =>
      push_neg at hpow
      have hpos : 0 < mx - mn + 1 := by omega
      obtain ⟨k, hk⟩ := pow_of_and_pred_eq_zero _ hpos hpow
      have hk32 : k ≤ 32 := by
        by_contra hgt
        have : (2 : Nat) ^ 33 ≤ 2 ^ k := Nat.pow_le_pow_right (by omega) (by omega)
        have : (2 : Nat) ^ 33 = 2 * 2 ^ 32 := by norm_num
        omega
      have hhc : halvingCount (mx - mn + 1) = k := by
        rw [hk]
        exact halvingCountAux_pow k 256 (by omega)
      rw [hhc] at hok
      have hsub : 32 - (32 - k) = k := by omega
      rw [hsub] at hok
      have hlit : (0xFFFFFFFF : Nat) = 2 ^ 32 - 1 := by norm_num
      rw [hlit, ones_shift_mod (by omega), xor_ones_high_mask (by omega)] at hok
      rw [Nat.and_pow_two_sub_one_eq_mod] at hok
      split at hok
      · exact absurd hok (by simp)
      · next hmod =>
        push_neg at hmod
        simp only [Except.ok.injEq, Prod.mk.injEq] at hok
        obtain ⟨ha, hb⟩ := hok
        subst ha
        subst hb
        refine ⟨rfl, by omega, ?_, ?_⟩
        · rw [hsub]
          omega
        · rw [hsub]
          exact Nat.dvd_of_mod_eq_zero hmod

/-- What a successful IPv6 range-to-prefix conversion guarantees. -/
theorem uint256RangeToIPv6Prefix_ok {mn mx a b : Nat} (hmn : mn ≤ mx)
    (hmx : mx < 2 ^ 128) (hok : uint256RangeToIPv6Prefix mn mx = .ok (a, b)) :
    a = mn ∧ b ≤ 128 ∧ mx + 1 - mn = 2 ^ (128 - b) ∧ 2 ^ (128 - b) ∣ mn := by
  unfold uint256RangeToIPv6Prefix at hok
  rw [if_neg (by omega)] at hok
  have hmn128 : mn % 2 ^ 128 = mn := Nat.mod_eq_of_lt (by omega)
  by_cases heq : mn = mx
  · rw [if_pos heq] at hok
    simp only [Except.ok.injEq, Prod.mk.injEq] at hok
    obtain ⟨ha, hb⟩ := hok
    subst hb
    refine ⟨by omega, by omega, by omega, by simp⟩
  · rw [if_neg heq] at hok
    dsimp only at hok
    have hdiffmod : (mx - mn + 1) % 2 ^ 256 = mx - mn + 1 := Nat.mod_eq_of_lt (by
      have : (2 : Nat) ^ 128 < 2 ^ 256 := by norm_num
      omega)
    rw [hdiffmod] at hok
    split at hok
    · exact absurd hok (by simp)
    · next hpow =>
      have hpw : isPowerOfTwo (mx - mn + 1) = true := by
        revert hpow
        cases isPowerOfTwo (mx - mn + 1) <;> simp
      unfold isPowerOfTwo at hpw
      simp only [Bool.and_eq_true, bne_iff_ne, ne_eq, beq_iff_eq, Bool.not_eq_eq_eq_not,
        Bool.not_true, beq_eq_false_iff_ne] at hpw
      obtain ⟨k, hk⟩ := pow_of_and_pred_eq_zero (mx - mn + 1) (by omega) (by
        rcases hpw with ⟨_, h2⟩
        exact h2)
      have hk128 : k ≤ 128 := by
        by_contra hgt
        have h1 : (2 : Nat) ^ 129 ≤ 2 ^ k := Nat.pow_le_pow_right (by omega) (by omega)
        have h2 : (2 : Nat) ^ 129 = 2 * 2 ^ 128 := by norm_num
        omega
      have hkpos : 1 ≤ k := by
        rcases Nat.eq_zero_or_pos k with h0 | h1
        · subst h0
          simp at hk
          omega
        · exact h1
      have hhc : halvingCount (mx - mn + 1) = k := by
        rw [hk]
        exact halvingCountAux_pow k 256 (by omega)
      rw [hhc] at hok
      have hsub : 128 - (128 - k) = k := by omega
      rw [hsub] at hok
      rw [if_pos (by omega)] at hok
      rw [Nat.and_pow_two_sub_one_eq_mod] at hok
      split at hok
      · exact absurd hok (by simp)
      · next hmod =>
        push_neg at hmod
        simp only [Except.ok.injEq, Prod.mk.injEq] at hok
        obtain ⟨ha, hb⟩ := hok
        subst hb
        refine ⟨by omega, by omega, ?_, ?_⟩
        · rw [hsub]
          omega
        · rw [hsub]
          exact Nat.dvd_of_mod_eq_zero hmod

/-- What a successful range-to-prefix conversion guarantees, family
dispatched. -/
theorem uint256RangeToPrefix_ok {isIPv4 : Bool} {mn mx a b : Nat} (hmn : mn ≤ mx)
    (hmx : mx < 2 ^ widthOf isIPv4)
    (hok : uint256RangeToPrefix isIPv4 mn mx = .ok (a, b)) :
    a = mn ∧ b ≤ widthOf isIPv4 ∧ mx + 1 - mn = 2 ^ (widthOf isIPv4 - b) ∧
      2 ^ (widthOf isIPv4 - b) ∣ mn := by
  cases isIPv4
  · exact uint256RangeToIPv6Prefix_ok hmn (by simpa [widthOf] using hmx) hok
  · exact uint256RangeToIPv4Prefix_ok hmn (by simpa [widthOf] using hmx) hok

/-- An aligned block below an aligned bound fits wholly below it. -/
theorem aligned_add_le {m a N : Nat} (_hm : 0 < m) (hdvd : m ∣ a) (hNdvd : m ∣ N)
    (hlt : a < N) : a + m ≤ N := by
  obtain ⟨d, hd⟩ := hdvd
  obtain ⟨e, he⟩ := hNdvd
  have hde : d < e := by
    by_contra hge
    push_neg at hge
    have := Nat.mul_le_mul_left m hge
    omega
  have hstep : m * (d + 1) ≤ m * e := Nat.mul_le_mul_left m hde
  have hdist : m * (d + 1) = m * d + m := by ring
  omega

/-- `SetBytes` of a cons. -/
theorem bytesBEToNat_cons (b : Nat) (bs : List Nat) :
    bytesBEToNat (b :: bs) = b * 256 ^ bs.length + bytesBEToNat bs := by
  show List.foldl _ (0 * 256 + b) bs = _
  rw [bytesFold_acc]
  ring_nf

/-- AND-masking one byte of a big-endian slice does not increase its value. -/
theorem bytesBEToNat_set_and_le :
    ∀ (l : List Nat) (i m : Nat),
      bytesBEToNat (l.set i ((l.getD i 0) &&& m)) ≤ bytesBEToNat l := by
  intro l
  induction l with
  | nil =>
    intro i m
    exact le_rfl
  | cons b bs ih =>
    intro i m
    match i with
    | 0 =>
      simp only [List.set_cons_zero, List.getD_cons_zero]
      rw [bytesBEToNat_cons, bytesBEToNat_cons]
      have hble : b &&& m ≤ b := Nat.and_le_left
      have := Nat.mul_le_mul_right (256 ^ bs.length) hble
      omega
    | j + 1 =>
      simp only [List.set_cons_succ, List.getD_cons_succ]
      rw [bytesBEToNat_cons, bytesBEToNat_cons, List.length_set]
      have := ih j m
      omega

/-- The partial-byte clearing step does not increase the value. -/
theorem ipv6ClearPartialByte_le {a h : Nat} (ha : a < 2 ^ 256) :
    ipv6ClearPartialByte a h ≤ a := by
  unfold ipv6ClearPartialByte
  dsimp only
  split
  · have hrt : bytesBEToNat (natToBytesBE a) = a := by
      unfold natToBytesBE
      exact natToBytesBEAux_roundtrip 32 a (by
        have h2 : (256 : Nat) ^ 32 = 2 ^ 256 := by norm_num
        omega)
    have hle := bytesBEToNat_set_and_le (natToBytesBE a) (15 - h / 8)
      ((0xFF <<< (h % 8)) % 256)
    omega
  · exact le_rfl

/-- An AND with a mask shifted left by `s` has its low `s` bits clear. -/
theorem and_shifted_dvd (x y s : Nat) : 2 ^ s ∣ (x &&& (y <<< s)) := by
  apply Nat.dvd_of_mod_eq_zero
  apply Nat.eq_of_testBit_eq
  intro j
  rw [Nat.testBit_mod_two_pow, Nat.testBit_and, Nat.testBit_shiftLeft, Nat.zero_testBit]
  by_cases hj : j < s
  · have hd : decide (j ≥ s) = false := by
      simp
      omega
    rw [hd]
    simp
  · have hd : decide (j < s) = false := by
      simp
      omega
    rw [hd]
    simp

/-- OR with a low block of ones rounds the value up to the next host
boundary minus one. -/
theorem or_low_ones (a h : Nat) :
    a ||| (2 ^ h - 1) = a - a % 2 ^ h + (2 ^ h - 1) := by
  have h1 := Nat.div_add_mod a (2 ^ h)
  have hdvd : 2 ^ h ∣ (a - a % 2 ^ h) := ⟨a / 2 ^ h, by omega⟩
  have hone : (1 : Nat) ≤ 2 ^ h := Nat.one_le_two_pow
  have heq : a ||| (2 ^ h - 1) = (a - a % 2 ^ h) ||| (2 ^ h - 1) := by
    apply Nat.eq_of_testBit_eq
    intro j
    rw [Nat.testBit_or, Nat.testBit_or]
    rcases lt_or_le j h with hj | hj
    · rw [Nat.testBit_two_pow_sub_one]
      have hd : decide (j < h) = true := by simp [hj]
      rw [hd]
      simp
    · have hh : a - a % 2 ^ h = (a >>> h) <<< h := by
        rw [Nat.shiftRight_eq_div_pow, Nat.shiftLeft_eq]
        calc a - a % 2 ^ h = 2 ^ h * (a / 2 ^ h) := by omega
          _ = a / 2 ^ h * 2 ^ h := Nat.mul_comm _ _
      rw [hh, Nat.testBit_shiftLeft, Nat.testBit_shiftRight, Nat.add_sub_cancel' hj]
      have hd : decide (j ≥ h) = true := by simp [hj]
      rw [hd]
      simp
  rw [heq, or_eq_add_of_dvd hdvd (by omega)]

/-- The wrapped-uint32 ones computation of `ipv4PrefixToUint256Range` yields
`2^h - 1` for every host width `h ≤ 32`. -/
theorem v4_ones_eq {h : Nat} (hh : h ≤ 32) :
    ((1 <<< h) % 2 ^ 32 + (2 ^ 32 - 1)) % 2 ^ 32 = 2 ^ h - 1 := by
  rw [Nat.one_shiftLeft]
  by_cases h32 : h = 32
  · subst h32
    norm_num
  · have hlt : (2 : Nat) ^ h < 2 ^ 32 := Nat.pow_lt_pow_right (by omega) (by omega)
    have hone : (1 : Nat) ≤ 2 ^ h := Nat.one_le_two_pow
    rw [Nat.mod_eq_of_lt hlt]
    have he : 2 ^ h + (2 ^ 32 - 1) = 2 ^ 32 + (2 ^ h - 1) := by omega
    rw [he, Nat.add_mod_left]
    exact Nat.mod_eq_of_lt (by omega)

/-- Shape of every IPv4 stored range: nonempty, inside the family space, and
ending one short of a host boundary. -/
theorem ipv4PrefixToUint256Range_shape {a bits mn mx : Nat} (ha : a < 2 ^ 32)
    (hbits : bits ≤ 32) (hok : ipv4PrefixToUint256Range a bits = .ok (mn, mx)) :
    mn ≤ mx ∧ mx < 2 ^ 32 ∧ 2 ^ (32 - bits) ∣ (mx + 1) := by
  unfold ipv4PrefixToUint256Range at hok
  rw [if_neg (by omega)] at hok
  by_cases h32 : bits = 32
  · rw [if_pos h32] at hok
    simp only [Except.ok.injEq, Prod.mk.injEq] at hok
    obtain ⟨h1, h2⟩ := hok
    subst h1
    subst h2
    exact ⟨le_rfl, ha, by simp [h32]⟩
  · rw [if_neg h32] at hok
    dsimp only at hok
    have hlit : (0xFFFFFFFF : Nat) = 2 ^ 32 - 1 := by norm_num
    rw [hlit, ones_shift_mod (by omega), v4_ones_eq (by omega)] at hok
    have hsub : 32 - (32 - bits) = bits := by omega
    rw [hsub] at hok
    simp only [Except.ok.injEq, Prod.mk.injEq] at hok
    obtain ⟨h1, h2⟩ := hok
    have hdvd : 2 ^ (32 - bits) ∣ (a &&& (2 ^ bits - 1) * 2 ^ (32 - bits)) := by
      have hsh : (2 ^ bits - 1) * 2 ^ (32 - bits) = (2 ^ bits - 1) <<< (32 - bits) := by
        rw [Nat.shiftLeft_eq]
      rw [hsh]
      exact and_shifted_dvd a _ _
    have hone : (1 : Nat) ≤ 2 ^ (32 - bits) := Nat.one_le_two_pow
    have hmnle : a &&& (2 ^ bits - 1) * 2 ^ (32 - bits) ≤ a := Nat.and_le_left
    have hor : (a &&& (2 ^ bits - 1) * 2 ^ (32 - bits)) ||| (2 ^ (32 - bits) - 1) =
        (a &&& (2 ^ bits - 1) * 2 ^ (32 - bits)) + (2 ^ (32 - bits) - 1) :=
      or_eq_add_of_dvd hdvd (by omega)
    rw [hor] at h2
    have hfit : (a &&& (2 ^ bits - 1) * 2 ^ (32 - bits)) + 2 ^ (32 - bits) ≤ 2 ^ 32 :=
      aligned_add_le (by omega) hdvd (Nat.pow_dvd_pow 2 (by omega)) (by omega)
    refine ⟨by omega, by omega, ?_⟩
    obtain ⟨d, hd⟩ := hdvd
    refine ⟨d + 1, ?_⟩
    have hdist : 2 ^ (32 - bits) * (d + 1) = 2 ^ (32 - bits) * d + 2 ^ (32 - bits) := by
      ring
    omega

/-- The common tail of the IPv6 shape argument, for a max of the form
`a ||| (2^h - 1)`. -/
theorem v6_shape_finish {a h mn : Nat} (ha : a < 2 ^ 128) (hh : h ≤ 128)
    (hmn : mn ≤ a) :
    mn ≤ a ||| (2 ^ h - 1) ∧ a ||| (2 ^ h - 1) < 2 ^ 128 ∧
      2 ^ h ∣ ((a ||| (2 ^ h - 1)) + 1) := by
  rw [or_low_ones]
  have hone : (1 : Nat) ≤ 2 ^ h := Nat.one_le_two_pow
  have h1 := Nat.div_add_mod a (2 ^ h)
  have hdvd : 2 ^ h ∣ (a - a % 2 ^ h) := ⟨a / 2 ^ h, by omega⟩
  have hmodlt : a % 2 ^ h < 2 ^ h := Nat.mod_lt _ (by omega)
  have hfit : (a - a % 2 ^ h) + 2 ^ h ≤ 2 ^ 128 :=
    aligned_add_le (by omega) hdvd (Nat.pow_dvd_pow 2 hh) (by omega)
  refine ⟨by omega, by omega, ?_⟩
  obtain ⟨d, hd⟩ := hdvd
  refine ⟨d + 1, ?_⟩
  have hdist : 2 ^ h * (d + 1) = 2 ^ h * d + 2 ^ h := by ring
  omega

/-- Joining the low 64 ones with a shifted ones block gives a single block of
ones. -/
theorem ones_or_high {s : Nat} (_hs : s ≤ 64) :
    ((2 : Nat) ^ 64 - 1) ||| ((2 ^ s - 1) <<< 64) = 2 ^ (64 + s) - 1 := by
  have hone64 : (1 : Nat) ≤ 2 ^ 64 := Nat.one_le_two_pow
  have hones : (1 : Nat) ≤ 2 ^ s := Nat.one_le_two_pow
  have hp : (2 : Nat) ^ (64 + s) = 2 ^ s * 2 ^ 64 := by
    rw [pow_add]
    ring
  have h1 : (2 ^ s - 1) * 2 ^ 64 = 2 ^ (64 + s) - 2 ^ 64 := by
    have hd : (2 ^ s - 1) * 2 ^ 64 = 2 ^ s * 2 ^ 64 - 1 * 2 ^ 64 := by
      rw [Nat.sub_mul]
    omega
  rw [Nat.shiftLeft_eq, Nat.or_comm,
    or_eq_add_of_dvd ⟨2 ^ s - 1, (Nat.mul_comm _ _)⟩ (by omega)]
  omega

/-- Shape of every IPv6 stored range, misaligned mins included: the stored max
is `addr ||| (2^h - 1)`, so the range is nonempty, inside the family space,
and ends one short of a host boundary. -/
theorem ipv6PrefixToUint256Range_shape {a bits mn mx : Nat} (ha : a < 2 ^ 128)
    (hbits : bits ≤ 128) (hok : ipv6PrefixToUint256Range a bits = .ok (mn, mx)) :
    mn ≤ mx ∧ mx < 2 ^ 128 ∧ 2 ^ (128 - bits) ∣ (mx + 1) := by
  unfold ipv6PrefixToUint256Range at hok
  rw [if_neg (by omega)] at hok
  by_cases h128 : bits = 128
  · rw [if_pos h128] at hok
    simp only [Except.ok.injEq, Prod.mk.injEq] at hok
    obtain ⟨h1, h2⟩ := hok
    subst h1
    subst h2
    exact ⟨le_rfl, ha, by simp [h128]⟩
  · rw [if_neg h128] at hok
    dsimp only at hok
    have hminle : (if (128 - bits) % 8 ≠ 0 then
        ipv6ClearPartialByte
          (if (128 - bits) / 8 > 0 then a &&& ipv6ByteMask ((128 - bits) / 8) else a)
          (128 - bits)
      else
        (if (128 - bits) / 8 > 0 then a &&& ipv6ByteMask ((128 - bits) / 8) else a)) ≤ a := by
      have hstep1 : (if (128 - bits) / 8 > 0 then a &&& ipv6ByteMask ((128 - bits) / 8)
          else a) ≤ a := by
        split
        · exact Nat.and_le_left
        · exact le_rfl
      split
      · exact le_trans (ipv6ClearPartialByte_le (by
          have h2 : (2 : Nat) ^ 128 < 2 ^ 256 := by norm_num
          omega)) hstep1
      · exact hstep1
    by_cases hge : 128 - bits ≥ 64
    · rw [if_pos hge] at hok
      by_cases hgt : 128 - bits > 64
      · rw [if_pos hgt] at hok
        by_cases hsh : 128 - bits - 64 ≥ 64
        · rw [if_pos hsh] at hok
          have hb0 : 128 - bits = 128 := by omega
          have hor : (a ||| (2 ^ 64 - 1)) ||| ((2 ^ 64 - 1) <<< 64) =
              a ||| (2 ^ (128 - bits) - 1) := by
            rw [Nat.or_assoc, ones_or_high (le_rfl), hb0]
          rw [hor] at hok
          simp only [Except.ok.injEq, Prod.mk.injEq] at hok
          obtain ⟨h1, h2⟩ := hok
          subst h2
          exact @v6_shape_finish a (128 - bits) mn ha (by omega) (h1 ▸ hminle)
        · rw [if_neg hsh] at hok
          have hor : (a ||| (2 ^ 64 - 1)) ||| ((2 ^ (128 - bits - 64) - 1) <<< 64) =
              a ||| (2 ^ (128 - bits) - 1) := by
            rw [Nat.or_assoc, ones_or_high (by omega)]
            have he : 64 + (128 - bits - 64) = 128 - bits := by omega
            rw [he]
          rw [hor] at hok
          simp only [Except.ok.injEq, Prod.mk.injEq] at hok
          obtain ⟨h1, h2⟩ := hok
          subst h2
          exact @v6_shape_finish a (128 - bits) mn ha (by omega) (h1 ▸ hminle)
      · rw [if_neg hgt] at hok
        have hb64 : 128 - bits = 64 := by omega
        rw [show ((2 : Nat) ^ 64 - 1) = 2 ^ (128 - bits) - 1 from by rw [hb64]] at hok
        simp only [Except.ok.injEq, Prod.mk.injEq] at hok
        obtain ⟨h1, h2⟩ := hok
        subst h2
        exact @v6_shape_finish a (128 - bits) mn ha (by omega) (h1 ▸ hminle)
    · rw [if_neg hge] at hok
      simp only [Except.ok.injEq, Prod.mk.injEq] at hok
      obtain ⟨h1, h2⟩ := hok
      subst h2
      exact @v6_shape_finish a (128 - bits) mn ha (by omega) (h1 ▸ hminle)

/-- Shape of every stored range, family dispatched. -/
theorem prefixToUint256Range_shape {isIPv4 : Bool} {a bits mn mx : Nat}
    (ha : a < 2 ^ widthOf isIPv4) (hbits : bits ≤ widthOf isIPv4)
    (hok : prefixToUint256Range isIPv4 a bits = .ok (mn, mx)) :
    mn ≤ mx ∧ mx < 2 ^ widthOf isIPv4 ∧ 2 ^ (widthOf isIPv4 - bits) ∣ (mx + 1) := by
  cases isIPv4
  · exact ipv6PrefixToUint256Range_shape (by simpa [widthOf] using ha)
      (by simpa [widthOf] using hbits) hok
  · exact ipv4PrefixToUint256Range_shape (by simpa [widthOf] using ha)
      (by simpa [widthOf] using hbits) hok

/-- Every record `parseIPPrefix` stores for a valid IPv4 input satisfies
`ParsedShape`. -/
theorem parsedShape_parsedV4 {a bits : Nat} (ha : a < 2 ^ 32) (hbits : bits ≤ 32) :
    ParsedShape true (parsedV4 a bits) := by
  unfold parsedV4
  cases hconv : ipv4PrefixToUint256Range a bits with
  | error e =>
    exfalso
    unfold ipv4PrefixToUint256Range at hconv
    rw [if_neg (by omega)] at hconv
    split at hconv
    · exact absurd hconv (by simp)
    · exact absurd hconv (by simp)
  | ok pr =>
    obtain ⟨mn, mx⟩ := pr
    obtain ⟨h1, h2, h3⟩ := ipv4PrefixToUint256Range_shape ha hbits hconv
    exact ⟨by simpa [widthOf] using hbits, by simpa [widthOf] using ha, h1,
      by simpa [widthOf] using h2, by simpa [widthOf] using h3⟩

/-- Every record `parseIPPrefix` stores for a valid IPv6 input satisfies
`ParsedShape` — including the misaligned ones of the conversion slip. -/
theorem parsedShape_parsedV6 {a bits : Nat} (ha : a < 2 ^ 128) (hbits : bits ≤ 128) :
    ParsedShape false (parsedV6 a bits) := by
  unfold parsedV6
  cases hconv : ipv6PrefixToUint256Range a bits with
  | error e =>
    exfalso
    unfold ipv6PrefixToUint256Range at hconv
    rw [if_neg (by omega)] at hconv
    split at hconv
    · exact absurd hconv (by simp)
    · exact absurd hconv (by simp)
  | ok pr =>
    obtain ⟨mn, mx⟩ := pr
    obtain ⟨h1, h2, h3⟩ := ipv6PrefixToUint256Range_shape ha hbits hconv
    exact ⟨by simpa [widthOf] using hbits, by simpa [widthOf] using ha, h1,
      by simpa [widthOf] using h2, by simpa [widthOf] using h3⟩

/-- C7 (counterexample): processing an exclusion disjoint from every prefix
of its family's sequence is claimed to produce no warning; the exclusion
`10.0.0.1/32` is disjoint from the single covering prefix `192.168.0.0/24`,
the sequence is unchanged, yet the specificity warning (`/32 > /30`) is
emitted. -/
theorem C7_disjoint_exclusion_counterexample :
    processExclusionsFamily true [parsedV4 0x0A000001 32] ([parsedV4 0xC0A80000 24], []) =
      ([parsedV4 0xC0A80000 24], [exclusionWarning]) ∧
    overlaps (parsedV4 0x0A000001 32) (parsedV4 0xC0A80000 24) = false := by
  constructor
  · rfl
  · decide

/-- C7 (amended): processing an exclusion that is disjoint from every prefix
of its family's sequence leaves the sequence unchanged, and produces no
warning provided the exclusion is not more specific than the recommended
floor (`/30` for IPv4, `/64` for IPv6); a more specific disjoint exclusion
still emits the specificity warning. -/
theorem C7_disjoint_exclusion_amended (isIPv4 : Bool) (e : IPPrefix)
    (l : List IPPrefix) (w : List String)
    (hdisj : ∀ p ∈ l, overlaps e p = false)
    (hrec : e.bits ≤ recommendedMinExclusion isIPv4) :
    processExclusionsFamily isIPv4 [e] (l, w) = (l, w) := by
  have hhard : e.bits ≤ minExclusionLen isIPv4 := by
    cases isIPv4 <;> simp_all [recommendedMinExclusion, minExclusionLen] <;> omega
  have h1 : ¬ (e.bits > minExclusionLen isIPv4) := by omega
  have h2 : ¬ (e.bits > recommendedMinExclusion isIPv4) := by omega
  simp [processExclusionsFamily, h1, h2, findOverlappingPrefixes_of_disjoint e l hdisj]

/-- C7 (witness): the amended statement at the concrete disjoint exclusion
`10.0.0.0/30` against the sequence `[192.168.0.0/24]`. -/
theorem C7_disjoint_exclusion_amended_witness :
    (∀ p ∈ [parsedV4 0xC0A80000 24], overlaps (parsedV4 0x0A000000 30) p = false) ∧
    processExclusionsFamily true [parsedV4 0x0A000000 30] ([parsedV4 0xC0A80000 24], []) =
      ([parsedV4 0xC0A80000 24], []) :=
  ⟨by decide,
   C7_disjoint_exclusion_amended true (parsedV4 0x0A000000 30) [parsedV4 0xC0A80000 24] []
     (by decide) (by decide)⟩

/-! ### Membership through sorting, deduplication and merging -/

/-- Inserting into the sorted list adds no elements beyond `p` and `l`. -/
theorem insertByMin_mem {q p : IPPrefix} :
    ∀ {l : List IPPrefix}, q ∈ insertByMin p l → q = p ∨ q ∈ l := by
  intro l
  induction l with
  | nil =>
    intro h
    rw [insertByMin] at h
    exact Or.inl (List.mem_singleton.mp h)
  | cons r rest ih =>
    intro h
    rw [insertByMin] at h
    by_cases hc : r.min ≤ p.min
    · rw [if_pos hc] at h
      rcases List.mem_cons.mp h with h1 | h2
      · exact Or.inr (h1 ▸ List.mem_cons_self r rest)
      · rcases ih h2 with h3 | h4
        · exact Or.inl h3
        · exact Or.inr (List.mem_cons_of_mem r h4)
    · rw [if_neg hc] at h
      rcases List.mem_cons.mp h with h1 | h2
      · exact Or.inl h1
      · exact Or.inr h2

/-- The insertion sort adds no elements. -/
theorem sortByMin_mem {q : IPPrefix} : ∀ {l : List IPPrefix}, q ∈ sortByMin l → q ∈ l := by
  intro l
  induction l with
  | nil => intro h; exact h
  | cons p rest ih =>
    intro h
    rw [sortByMin] at h
    rcases insertByMin_mem h with h1 | h2
    · exact h1 ▸ List.mem_cons_self p rest
    · exact List.mem_cons_of_mem p (ih h2)

/-- The deduplication walk only drops elements. -/
theorem dedupAux_mem {q last : IPPrefix} :
    ∀ {l : List IPPrefix}, q ∈ dedupAux last l → q ∈ l := by
  intro l
  induction l generalizing last with
  | nil => intro h; exact h
  | cons c rest ih =>
    intro h
    rw [dedupAux] at h
    by_cases hc : isDuplicatePrefix c last = true
    · rw [if_pos hc] at h
      exact List.mem_cons_of_mem c (ih h)
    · rw [if_neg hc] at h
      rcases List.mem_cons.mp h with h1 | h2
      · exact h1 ▸ List.mem_cons_self c rest
      · exact List.mem_cons_of_mem c (ih h2)

/-- `deduplicate` only drops elements. -/
theorem deduplicate_mem {q : IPPrefix} {l : List IPPrefix} :
    q ∈ deduplicate l → q ∈ l := by
  cases l with
  | nil => intro h; exact h
  | cons x rest =>
    intro h
    rw [deduplicate] at h
    rcases List.mem_cons.mp h with h1 | h2
    · exact h1 ▸ List.mem_cons_self x rest
    · exact List.mem_cons_of_mem x (dedupAux_mem h2)

/-- `sortAndDeduplicate` yields a subset of its input. -/
theorem sortAndDeduplicate_mem {q : IPPrefix} {l : List IPPrefix} :
    q ∈ sortAndDeduplicate l → q ∈ l := by
  unfold sortAndDeduplicate
  split
  · intro h; exact h
  · intro h; exact sortByMin_mem (deduplicate_mem h)

/-- A parsed entry whose length respects the floor satisfies the merge
invariant: its stored max ends one short of a `2^(width-bits)` boundary,
hence one short of a coarser `2^(width-f)` boundary. -/
theorem goodEntry_of_parsed {isIPv4 : Bool} {f : Nat} {p : IPPrefix}
    (hp : ParsedShape isIPv4 p) (hb : p.bits ≤ f) : GoodEntry isIPv4 f p := by
  obtain ⟨h1, h2, h3, h4, h5⟩ := hp
  exact ⟨hb, h3, h4, dvd_trans (Nat.pow_dvd_pow 2 (by omega)) h5⟩

/-- A successful merge of two non-nested entries satisfying the floor
invariant satisfies it as well: were the merged block smaller than the floor
block size, both inputs would have to end exactly at the merged max (their
maxes sit on `2^(width-f)` boundaries less one, and the merged block is too
small to hold two), making one input contain the other — but the merge
branches run only on non-nested pairs. -/
theorem mergeAdjacent_good {isIPv4 : Bool} {f : Nat} {a b m : IPPrefix}
    (ha : GoodEntry isIPv4 f a) (hb : GoodEntry isIPv4 f b)
    (hnab : contains a b = false) (hnba : contains b a = false)
    (hm : mergeAdjacent a b isIPv4 = .ok m) : GoodEntry isIPv4 f m := by
  obtain ⟨ha1, ha2, ha3, ha4⟩ := ha
  obtain ⟨hb1, hb2, hb3, hb4⟩ := hb
  unfold mergeAdjacent at hm
  dsimp only at hm
  have hmnle : (if a.min ≤ b.min then a.min else b.min) ≤
      (if a.max ≥ b.max then a.max else b.max) := by
    split <;> split <;> omega
  have hmxlt : (if a.max ≥ b.max then a.max else b.max) < 2 ^ widthOf isIPv4 := by
    split <;> omega
  cases hconv : uint256RangeToPrefix isIPv4 (if a.min ≤ b.min then a.min else b.min)
      (if a.max ≥ b.max then a.max else b.max) with
  | error e =>
    rw [hconv] at hm
    exact absurd hm (by simp)
  | ok pr =>
    obtain ⟨pa, pb⟩ := pr
    rw [hconv] at hm
    dsimp only at hm
    cases hm
    obtain ⟨hpa, hpbw, hsize, hdvd⟩ := uint256RangeToPrefix_ok hmnle hmxlt hconv
    have hmaxdvd : 2 ^ (widthOf isIPv4 - f) ∣
        ((if a.max ≥ b.max then a.max else b.max) + 1) := by
      split
      · exact ha4
      · exact hb4
    have hge_a : a.max ≤ (if a.max ≥ b.max then a.max else b.max) := by
      split <;> omega
    have hge_b : b.max ≤ (if a.max ≥ b.max then a.max else b.max) := by
      split <;> omega
    have hmn_a : (if a.min ≤ b.min then a.min else b.min) ≤ a.min := by
      split <;> omega
    have hmn_b : (if a.min ≤ b.min then a.min else b.min) ≤ b.min := by
      split <;> omega
    have hpbf : pb ≤ f := by
      by_contra hgt
      push_neg at hgt
      have hplt : (2 : Nat) ^ (widthOf isIPv4 - pb) < 2 ^ (widthOf isIPv4 - f) :=
        Nat.pow_lt_pow_right (by omega) (by omega)
      have hA : a.max = (if a.max ≥ b.max then a.max else b.max) := by
        have hd2 : 2 ^ (widthOf isIPv4 - f) ∣
            ((if a.max ≥ b.max then a.max else b.max) + 1 - (a.max + 1)) :=
          Nat.dvd_sub' hmaxdvd ha4
        have h0 : (if a.max ≥ b.max then a.max else b.max) + 1 - (a.max + 1) = 0 :=
          Nat.eq_zero_of_dvd_of_lt hd2 (by omega)
        omega
      have hB : b.max = (if a.max ≥ b.max then a.max else b.max) := by
        have hd2 : 2 ^ (widthOf isIPv4 - f) ∣
            ((if a.max ≥ b.max then a.max else b.max) + 1 - (b.max + 1)) :=
          Nat.dvd_sub' hmaxdvd hb4
        have h0 : (if a.max ≥ b.max then a.max else b.max) + 1 - (b.max + 1) = 0 :=
          Nat.eq_zero_of_dvd_of_lt hd2 (by omega)
        omega
      have habmax : a.max = b.max := by omega
      simp only [contains, decide_eq_false_iff_not] at hnab hnba
      push_neg at hnab hnba
      rcases le_or_lt a.min b.min with hmin | hmin
      · have := hnab hmin
        omega
      · have := hnba (by omega)
        omega
    refine ⟨?_, ?_, ?_, ?_⟩ <;> dsimp only
    · exact hpbf
    · exact hmnle
    · exact hmxlt
    · exact hmaxdvd

/-- `mergeOverlapping` has the same body as `mergeAdjacent`. -/
theorem mergeOverlapping_eq (a b : IPPrefix) (v : Bool) :
    mergeOverlapping a b v = mergeAdjacent a b v := rfl

/-- One sweep of the merge loop preserves the floor invariant. -/
theorem aggregateOnePass_good {isIPv4 : Bool} {f : Nat} :
    ∀ n (l : List IPPrefix), l.length ≤ n → (∀ p ∈ l, GoodEntry isIPv4 f p) →
      ∀ q ∈ (aggregateOnePass isIPv4 l).1, GoodEntry isIPv4 f q := by
  intro n
  induction n with
  | zero =>
    intro l hl _ q hq
    cases l with
    | nil => rw [aggregateOnePass] at hq; exact absurd hq (by simp)
    | cons x rest => simp at hl
  | succ n ih =>
    intro l hl hgood q hq
    match l with
    | [] => rw [aggregateOnePass] at hq; exact absurd hq (by simp)
    | [x] =>
      rw [aggregateOnePass] at hq
      rcases List.mem_singleton.mp hq with rfl
      exact hgood q (by simp)
    | cur :: next :: rest =>
      have hlr : rest.length ≤ n := by simp at hl; omega
      have hlnr : (next :: rest).length ≤ n := by simp at hl ⊢; omega
      have hgr : ∀ p ∈ rest, GoodEntry isIPv4 f p :=
        fun p hp => hgood p (by simp [hp])
      have hgnr : ∀ p ∈ next :: rest, GoodEntry isIPv4 f p :=
        fun p hp => hgood p (by simp at hp ⊢; tauto)
      have hgc : GoodEntry isIPv4 f cur := hgood cur (by simp)
      have hgn : GoodEntry isIPv4 f next := hgood next (by simp)
      rw [aggregateOnePass] at hq
      by_cases h1 : contains cur next = true
      · rw [if_pos h1] at hq
        dsimp only at hq
        rcases List.mem_cons.mp hq with rfl | hq'
        · exact hgc
        · exact ih rest hlr hgr q hq'
      · rw [if_neg h1] at hq
        by_cases h2 : contains next cur = true
        · rw [if_pos h2] at hq
          dsimp only at hq
          rcases List.mem_cons.mp hq with rfl | hq'
          · exact hgn
          · exact ih rest hlr hgr q hq'
        · rw [if_neg h2] at hq
          have h1f : contains cur next = false := by
            revert h1
            cases contains cur next <;> simp
          have h2f : contains next cur = false := by
            revert h2
            cases contains next cur <;> simp
          by_cases h3 : areAdjacent cur next = true
          · rw [if_pos h3] at hq
            cases hmerge : mergeAdjacent cur next isIPv4 with
            | ok merged =>
              rw [hmerge] at hq
              dsimp only at hq
              rcases List.mem_cons.mp hq with rfl | hq'
              · exact mergeAdjacent_good hgc hgn h1f h2f hmerge
              · exact ih rest hlr hgr q hq'
            | error e =>
              rw [hmerge] at hq
              dsimp only at hq
              rcases List.mem_cons.mp hq with rfl | hq'
              · exact hgc
              · exact ih (next :: rest) hlnr hgnr q hq'
          · rw [if_neg h3] at hq
            by_cases h4 : overlaps cur next = true
            · rw [if_pos h4] at hq
              cases hmerge : mergeOverlapping cur next isIPv4 with
              | ok merged =>
                rw [hmerge] at hq
                dsimp only at hq
                rcases List.mem_cons.mp hq with rfl | hq'
                · exact mergeAdjacent_good hgc hgn h1f h2f
                    (mergeOverlapping_eq cur next isIPv4 ▸ hmerge)
                · exact ih rest hlr hgr q hq'
              | error e =>
                rw [hmerge] at hq
                dsimp only at hq
                rcases List.mem_cons.mp hq with rfl | hq'
                · exact hgc
                · exact ih (next :: rest) hlnr hgnr q hq'
            · rw [if_neg h4] at hq
              dsimp only at hq
              rcases List.mem_cons.mp hq with rfl | hq'
              · exact hgc
              · exact ih (next :: rest) hlnr hgnr q hq'

/-- The merge fixed-point loop preserves the floor invariant. -/
theorem aggregateGo_good {isIPv4 : Bool} {f : Nat} :
    ∀ (fuel : Nat) (c : Bool) (l out : List IPPrefix),
      (∀ p ∈ l, GoodEntry isIPv4 f p) →
      aggregateGo isIPv4 fuel c l = .ok out → ∀ q ∈ out, GoodEntry isIPv4 f q := by
  intro fuel
  induction fuel with
  | zero =>
    intro c l out _ h
    rw [aggregateGo] at h
    exact absurd h (by simp)
  | succ m ih =>
    intro c l out hgood h
    cases c with
    | false =>
      rw [aggregateGo] at h
      cases h
      exact hgood
    | true =>
      rw [aggregateGo] at h
      exact ih _ _ _ (fun p hp => aggregateOnePass_good l.length l le_rfl hgood p hp) h

/-- `aggregatePrefixes` preserves the floor invariant. -/
theorem aggregatePrefixes_good {isIPv4 : Bool} {f : Nat} {l out : List IPPrefix}
    (hgood : ∀ p ∈ l, GoodEntry isIPv4 f p)
    (h : aggregatePrefixes isIPv4 l = .ok out) : ∀ q ∈ out, GoodEntry isIPv4 f q := by
  unfold aggregatePrefixes at h
  split at h
  · cases h
    exact hgood
  · exact aggregateGo_good 5000 true l out hgood h

/-- A successful round-up of a well-formed entry satisfies the floor
invariant: either it already respected the floor, or it is replaced by the
covering aligned block of exactly the floor length. -/
theorem roundUpToMinLength_good {isIPv4 : Bool} {p r : IPPrefix} {f : Nat}
    (hp : ParsedShape isIPv4 p)
    (h : roundUpToMinLength isIPv4 p f = .ok r) : GoodEntry isIPv4 f r := by
  unfold roundUpToMinLength at h
  by_cases h1 : p.bits ≤ f
  · rw [if_pos h1] at h
    cases h
    exact goodEntry_of_parsed hp h1
  · rw [if_neg h1] at h
    by_cases h2 : f > widthOf isIPv4
    · rw [if_pos h2] at h
      exact absurd h (by simp)
    · rw [if_neg h2] at h
      push_neg at h2
      obtain ⟨hw1, hw2, hw3, hw4, hw5⟩ := hp
      have hone : (1 : Nat) ≤ 2 ^ (widthOf isIPv4 - f) := Nat.one_le_two_pow
      have hdvd : 2 ^ (widthOf isIPv4 - f) ∣ maskToLen isIPv4 p.addr f := by
        refine ⟨p.addr / 2 ^ (widthOf isIPv4 - f), ?_⟩
        unfold maskToLen
        have := Nat.div_add_mod p.addr (2 ^ (widthOf isIPv4 - f))
        omega
      have hlt : maskToLen isIPv4 p.addr f < 2 ^ widthOf isIPv4 := by
        unfold maskToLen
        omega
      rw [prefixToUint256Range_aligned h2 hlt hdvd] at h
      dsimp only at h
      cases h
      have hfit : maskToLen isIPv4 p.addr f + 2 ^ (widthOf isIPv4 - f) ≤
          2 ^ widthOf isIPv4 :=
        aligned_add_le (by omega) hdvd (Nat.pow_dvd_pow 2 (by omega)) hlt
      refine ⟨le_rfl, by dsimp only; omega, by dsimp only; omega, ?_⟩
      dsimp only
      obtain ⟨d, hd⟩ := hdvd
      refine ⟨d + 1, ?_⟩
      have hdist : 2 ^ (widthOf isIPv4 - f) * (d + 1) =
          2 ^ (widthOf isIPv4 - f) * d + 2 ^ (widthOf isIPv4 - f) := by
        ring
      omega

/-- The per-entry enforcement walk yields entries satisfying the floor
invariant whenever its input entries have the parsed shape. -/
theorem enforceMinList_good {isIPv4 : Bool} {f : Nat} :
    ∀ (l out : List IPPrefix), (∀ p ∈ l, ParsedShape isIPv4 p) →
      enforceMinList isIPv4 f l = .ok out → ∀ q ∈ out, GoodEntry isIPv4 f q := by
  intro l
  induction l with
  | nil =>
    intro out _ h q hq
    rw [enforceMinList] at h
    cases h
    exact absurd hq (by simp)
  | cons p rest ih =>
    intro out hwf h q hq
    rw [enforceMinList] at h
    have hwr : ∀ x ∈ rest, ParsedShape isIPv4 x :=
      fun x hx => hwf x (by simp [hx])
    by_cases hb : p.bits ≥ f
    · rw [if_pos hb] at h
      cases hr : roundUpToMinLength isIPv4 p f with
      | error e =>
        rw [hr] at h
        exact absurd h (by simp)
      | ok r =>
        rw [hr] at h
        dsimp only at h
        cases hrest : enforceMinList isIPv4 f rest with
        | error e =>
          rw [hrest] at h
          exact absurd h (by simp)
        | ok rs =>
          rw [hrest] at h
          dsimp only at h
          cases h
          rcases List.mem_cons.mp hq with rfl | hq'
          · exact roundUpToMinLength_good (hwf p (by simp)) hr
          · exact ih rs hwr hrest q hq'
    · rw [if_neg hb] at h
      push_neg at hb
      cases hrest : enforceMinList isIPv4 f rest with
      | error e =>
        rw [hrest] at h
        exact absurd h (by simp)
      | ok rs =>
        rw [hrest] at h
        dsimp only at h
        cases h
        rcases List.mem_cons.mp hq with rfl | hq'
        · exact goodEntry_of_parsed (hwf q (by simp)) (by omega)
        · exact ih rs hwr hrest q hq'

/-- `enforceMinPrefixLength` with a positive floor yields entries satisfying
the floor invariant whenever its input entries are well-formed. -/
theorem enforceMinLength_good {isIPv4 : Bool} {f : Nat} {l out : List IPPrefix}
    (hfpos : 0 < f) (hwf : ∀ p ∈ l, ParsedShape isIPv4 p)
    (h : enforceMinLength isIPv4 f l = .ok out) : ∀ q ∈ out, GoodEntry isIPv4 f q := by
  unfold enforceMinLength at h
  split at h
  · next hcond =>
    rcases hcond with h0 | hnil
    · omega
    · subst hnil
      cases h
      intro q hq
      exact absurd hq (by simp)
  · exact enforceMinList_good l out hwf h

/-- What a successful `Aggregate` run pins down: each pipeline stage
succeeded, and the output sequences are the final sort-and-deduplicate of the
exclusion stage applied to the merge stage's results. -/
theorem Aggregate_ok_elim {pa st : PrefixAggregator} (hok : Aggregate pa = .ok st) :
    ∃ l4 l6 m4 m6,
      enforceMinLength true pa.MinPrefixLenIPv4 (pa.IPv4Prefixes ++ pa.IncludeIPv4) = .ok l4 ∧
      enforceMinLength false pa.MinPrefixLenIPv6 (pa.IPv6Prefixes ++ pa.IncludeIPv6) = .ok l6 ∧
      aggregatePrefixes true (sortAndDeduplicate l4) = .ok m4 ∧
      aggregatePrefixes false (sortAndDeduplicate l6) = .ok m6 ∧
      st.IPv4Prefixes =
        sortAndDeduplicate (processExclusionsFamily true pa.ExcludeIPv4 (m4, [])).1 ∧
      st.IPv6Prefixes =
        sortAndDeduplicate (processExclusionsFamily false pa.ExcludeIPv6
          (m6, (processExclusionsFamily true pa.ExcludeIPv4 (m4, [])).2)).1 := by
  unfold Aggregate at hok
  simp only [bind, Except.bind] at hok
  cases h4 : enforceMinLength true pa.MinPrefixLenIPv4 (pa.IPv4Prefixes ++ pa.IncludeIPv4) with
  | error e =>
    rw [h4] at hok
    exact absurd hok (by simp)
  | ok l4 =>
    rw [h4] at hok
    dsimp only at hok
    cases h6 : enforceMinLength false pa.MinPrefixLenIPv6 (pa.IPv6Prefixes ++ pa.IncludeIPv6) with
    | error e =>
      rw [h6] at hok
      exact absurd hok (by simp)
    | ok l6 =>
      rw [h6] at hok
      dsimp only at hok
      cases ha4 : aggregatePrefixes true (sortAndDeduplicate l4) with
      | error e =>
        rw [ha4] at hok
        exact absurd hok (by simp)
      | ok m4 =>
        rw [ha4] at hok
        dsimp only at hok
        cases ha6 : aggregatePrefixes false (sortAndDeduplicate l6) with
        | error e =>
          rw [ha6] at hok
          exact absurd hok (by simp)
        | ok m6 =>
          rw [ha6] at hok
          dsimp only at hok
          cases hok
          exact ⟨l4, l6, m4, m6, rfl, rfl, ha4, ha6, rfl, rfl⟩

/-- C3 (counterexample): with the IPv4 floor 24, the well-formed primary
`10.0.0.0/24` and the exclusion `10.0.0.0/25`, `Aggregate` succeeds, yet the
output contains a prefix longer than the floor — exclusion processing
decomposes the covering block into fragments more specific than the floor. -/
theorem C3_floor_counterexample :
    0 < floorExclusionState.MinPrefixLenIPv4 ∧
    (∀ p ∈ floorExclusionState.IPv4Prefixes ++ floorExclusionState.IncludeIPv4,
      ParsedShape true p) ∧
    (match Aggregate floorExclusionState with
      | .ok st =>
        decide (∀ p ∈ st.IPv4Prefixes, p.bits ≤ floorExclusionState.MinPrefixLenIPv4)
      | .error _ => true) = false := by
  refine ⟨by decide, by decide, by decide⟩

/-- C3 (amended): if a positive minimum-prefix-length floor is configured for
a family, no exclusions are configured for that family, and the family's
primary and include prefixes have the shape `parseIPPrefix` stores (which
every reachable entry does, misaligned IPv6 mins included — see
`parsedShape_parsedV4`/`parsedShape_parsedV6`), then after a successful
`Aggregate` every output prefix of that family has length at most the
floor. -/
theorem C3_floor_amended (isIPv4 : Bool) (pa st : PrefixAggregator)
    (hfpos : 0 < famFloor isIPv4 pa)
    (hexc : famExcludes isIPv4 pa = [])
    (hwf : ∀ p ∈ famPrefixes isIPv4 pa ++ famIncludes isIPv4 pa, ParsedShape isIPv4 p)
    (hok : Aggregate pa = .ok st) :
    ∀ p ∈ famPrefixes isIPv4 st, p.bits ≤ famFloor isIPv4 pa := by
  obtain ⟨l4, l6, m4, m6, h4, h6, ha4, ha6, hst4, hst6⟩ := Aggregate_ok_elim hok
  cases isIPv4
  · simp only [famFloor, famExcludes, famPrefixes, famIncludes, if_neg, Bool.false_eq_true,
      if_false] at hfpos hexc hwf ⊢
    intro p hp
    rw [hst6, hexc] at hp
    simp only [processExclusionsFamily] at hp
    have hp' : p ∈ m6 := sortAndDeduplicate_mem hp
    have hgood : ∀ q ∈ sortAndDeduplicate l6, GoodEntry false pa.MinPrefixLenIPv6 q :=
      fun q hq => enforceMinLength_good hfpos hwf h6 q (sortAndDeduplicate_mem hq)
    exact (aggregatePrefixes_good hgood ha6 p hp').1
  · simp only [famFloor, famExcludes, famPrefixes, famIncludes, if_pos,
      if_true] at hfpos hexc hwf ⊢
    intro p hp
    rw [hst4, hexc] at hp
    simp only [processExclusionsFamily] at hp
    have hp' : p ∈ m4 := sortAndDeduplicate_mem hp
    have hgood : ∀ q ∈ sortAndDeduplicate l4, GoodEntry true pa.MinPrefixLenIPv4 q :=
      fun q hq => enforceMinLength_good hfpos hwf h4 q (sortAndDeduplicate_mem hq)
    exact (aggregatePrefixes_good hgood ha4 p hp').1

/-- C3 (witness): the amended statement at the aggregator with IPv6 floor
116 and the primaries `::400/118`, `::500/116` — reachable inputs whose
second stored range is misaligned — with no exclusions: the output is the
single block `::/116`, within the floor. -/
theorem C3_floor_amended_witness :
    0 < famFloor false c3WitnessState ∧
    famExcludes false c3WitnessState = [] ∧
    (∀ p ∈ famPrefixes false c3WitnessState ++ famIncludes false c3WitnessState,
      ParsedShape false p) ∧
    Aggregate c3WitnessState = .ok c3WitnessOut ∧
    ∀ p ∈ famPrefixes false c3WitnessOut, p.bits ≤ famFloor false c3WitnessState :=
  ⟨by decide, by decide, by decide, rfl,
   C3_floor_amended false c3WitnessState c3WitnessOut (by decide) (by decide) (by decide)
     rfl⟩

/-! ### `findOverlappingPrefixes` on a sorted, pairwise-disjoint sequence -/

/-- `getD` below the length is `getElem`. -/
theorem getD_eq_getElem_of_lt {α : Type _} {l : List α} {i : Nat} {d : α}
    (h : i < l.length) : l.getD i d = l[i] := by
  rw [List.getD_eq_getElem?_getD, List.getElem?_eq_getElem h]
  rfl

/-- A target wholly left of a range does not overlap it. -/
theorem overlaps_false_of_lt_min {t p : IPPrefix} (h : t.max < p.min) :
    overlaps t p = false := by
  simp [overlaps]
  omega

/-- A range wholly left of the target does not overlap it. -/
theorem overlaps_false_of_max_lt {t p : IPPrefix} (h : p.max < t.min) :
    overlaps t p = false := by
  simp [overlaps]
  omega

/-- A filter rejecting every position yields the empty list. -/
theorem filter_nil_of_all :
    ∀ (l : List IPPrefix) (f : IPPrefix → Bool),
      (∀ k, k < l.length → f (l.getD k dfltPfx) = false) → l.filter f = [] := by
  intro l
  induction l with
  | nil => intro f _; rfl
  | cons x xs ih =>
    intro f h
    rw [List.filter_cons]
    have h0 : f x = false := h 0 (by simp)
    rw [h0]
    simp only [Bool.false_eq_true, if_false]
    exact ih f (fun k hk => h (k + 1) (by simp; omega))

/-- A filter rejecting every position of a `take` yields the empty list. -/
theorem take_filter_nil :
    ∀ (m : Nat) (l : List IPPrefix) (f : IPPrefix → Bool),
      (∀ k, k < m → k < l.length → f (l.getD k dfltPfx) = false) →
      (l.take m).filter f = [] := by
  intro m
  induction m with
  | zero => intro l f _; rfl
  | succ j ih =>
    intro l f h
    cases l with
    | nil => rfl
    | cons x xs =>
      rw [List.take_succ_cons, List.filter_cons]
      have h0 : f x = false := h 0 (by omega) (by simp)
      rw [h0]
      simp only [Bool.false_eq_true, if_false]
      exact ih xs f (fun k hk hkl => h (k + 1) (by omega) (by simp; omega))

/-- A filter rejecting every position of a `drop` yields the empty list. -/
theorem drop_filter_nil :
    ∀ (m : Nat) (l : List IPPrefix) (f : IPPrefix → Bool),
      (∀ k, m ≤ k → k < l.length → f (l.getD k dfltPfx) = false) →
      (l.drop m).filter f = [] := by
  intro m
  induction m with
  | zero =>
    intro l f h
    exact filter_nil_of_all l f (fun k hk => h k (by omega) hk)
  | succ j ih =>
    intro l f h
    cases l with
    | nil => rfl
    | cons x xs =>
      rw [List.drop_succ_cons]
      exact ih xs f (fun k hk hkl => h (k + 1) (by omega) (by simp; omega))

/-- In a sorted pairwise-disjoint list, an earlier range ends before a later
one begins. -/
theorem pairwise_max_lt_min {l : List IPPrefix}
    (hpw : List.Pairwise (fun p q => p.max < q.min) l) {i j : Nat}
    (hij : i < j) (hj : j < l.length) :
    (l.getD i dfltPfx).max < (l.getD j dfltPfx).min := by
  rw [getD_eq_getElem_of_lt (by omega), getD_eq_getElem_of_lt hj]
  exact List.pairwise_iff_getElem.mp hpw i j (by omega) hj hij

/-- Termination step of the binary search: once the window is empty, the
recorded candidate is the rightmost index with `Min ≤ targetMax` (or `-1` if
there is none). -/
theorem binSearch_post_aux (l : List IPPrefix) (tm : Nat) (left right fp : Int)
    (hterm : right < left)
    (hAC : ∀ i : Nat, i < l.length → (l.getD i dfltPfx).min ≤ tm →
      ((i : Int) ≤ right ∨ (i : Int) ≤ fp))
    (hC : ∀ i : Nat, i < l.length → (i : Int) < left → (l.getD i dfltPfx).min ≤ tm →
      (i : Int) ≤ fp)
    (hD : fp = -1 ∨ (0 ≤ fp ∧ fp < (l.length : Int) ∧ (l.getD fp.toNat dfltPfx).min ≤ tm)) :
    (fp = -1 ∧ ∀ i : Nat, i < l.length → ¬ (l.getD i dfltPfx).min ≤ tm) ∨
      (0 ≤ fp ∧ fp < (l.length : Int) ∧ (l.getD fp.toNat dfltPfx).min ≤ tm ∧
        ∀ i : Nat, i < l.length → (l.getD i dfltPfx).min ≤ tm → (i : Int) ≤ fp) := by
  have hall : ∀ i : Nat, i < l.length → (l.getD i dfltPfx).min ≤ tm → (i : Int) ≤ fp := by
    intro i hi hP
    rcases hAC i hi hP with h | h
    · exact hC i hi (by omega) hP
    · exact h
  rcases hD with h1 | ⟨h2, h3, h4⟩
  · refine Or.inl ⟨h1, fun i hi hP => ?_⟩
    have := hall i hi hP
    omega
  · exact Or.inr ⟨h2, h3, h4, hall⟩

/-- Full invariant of the binary-search loop: with enough fuel and
`Min` nondecreasing along the list, it returns the rightmost index whose
`Min ≤ targetMax`, or `-1` when every `Min` exceeds it. -/
theorem binSearchGo_spec (l : List IPPrefix) (tm : Nat)
    (hmono : ∀ i j : Nat, i ≤ j → j < l.length → (l.getD j dfltPfx).min ≤ tm →
      (l.getD i dfltPfx).min ≤ tm) :
    ∀ (fuel : Nat) (left right fp : Int),
      right - left + 2 ≤ (fuel : Int) →
      0 ≤ left → right ≤ (l.length : Int) - 1 → fp < left →
      (∀ i : Nat, i < l.length → (l.getD i dfltPfx).min ≤ tm →
        ((i : Int) ≤ right ∨ (i : Int) ≤ fp)) →
      (∀ i : Nat, i < l.length → (i : Int) < left → (l.getD i dfltPfx).min ≤ tm →
        (i : Int) ≤ fp) →
      (fp = -1 ∨ (0 ≤ fp ∧ fp < (l.length : Int) ∧ (l.getD fp.toNat dfltPfx).min ≤ tm)) →
      ((binSearchGo l tm fuel left right fp = -1 ∧
          ∀ i : Nat, i < l.length → ¬ (l.getD i dfltPfx).min ≤ tm) ∨
        (0 ≤ binSearchGo l tm fuel left right fp ∧
          binSearchGo l tm fuel left right fp < (l.length : Int) ∧
          (l.getD (binSearchGo l tm fuel left right fp).toNat dfltPfx).min ≤ tm ∧
          ∀ i : Nat, i < l.length → (l.getD i dfltPfx).min ≤ tm →
            (i : Int) ≤ binSearchGo l tm fuel left right fp)) := by
  intro fuel
  induction fuel with
  | zero =>
    intro left right fp hfuel hl hr hfl hAC hC hD
    rw [binSearchGo]
    exact binSearch_post_aux l tm left right fp (by omega) hAC hC hD
  | succ n ih =>
    intro left right fp hfuel hl hr hfl hAC hC hD
    rw [binSearchGo]
    split
    · next hlr =>
      dsimp only
      split
      · next hmid =>
        apply ih
        · omega
        · omega
        · exact hr
        · omega
        · intro i hi hP
          rcases hAC i hi hP with h | h
          · exact Or.inl h
          · exact Or.inr (by omega)
        · intro i hi hil hP
          omega
        · exact Or.inr ⟨by omega, by omega, hmid⟩
      · next hmid =>
        apply ih
        · omega
        · exact hl
        · omega
        · omega
        · intro i hi hP
          rcases hAC i hi hP with h | h
          · by_cases hile : (i : Int) ≤ left + (right - left) / 2 - 1
            · exact Or.inl hile
            · exfalso
              apply hmid
              apply hmono (left + (right - left) / 2).toNat i (by omega) hi hP
          · exact Or.inr h
        · exact hC
        · exact hD
    · next hlr =>
      exact binSearch_post_aux l tm left right fp (by omega) hAC hC hD

/-- The backwards scan from index `i` collects exactly the overlapping entries
among the first `i + 1`, in decreasing order, on a sorted pairwise-disjoint
list of nonempty ranges. -/
theorem scanBack_spec (l : List IPPrefix) (t : IPPrefix)
    (hpw : List.Pairwise (fun p q => p.max < q.min) l)
    (hne : ∀ p ∈ l, p.min ≤ p.max) :
    ∀ i, i < l.length →
      (scanBack l t i).reverse = (l.take (i + 1)).filter (fun p => overlaps t p) := by
  intro i
  induction i with
  | zero =>
    intro hi
    cases l with
    | nil => simp at hi
    | cons x xs =>
      rw [scanBack]
      rw [List.take_succ_cons, List.take_zero, List.filter_cons]
      have hx : (x :: xs).getD 0 dfltPfx = x := rfl
      rw [hx]
      by_cases hstop : x.max < t.min
      · rw [if_pos hstop, overlaps_false_of_max_lt hstop]
        rfl
      · rw [if_neg hstop]
        by_cases hov : overlaps t x = true
        · rw [if_pos hov, hov]
          rfl
        · have hov' : overlaps t x = false := by
            revert hov
            cases overlaps t x <;> simp
          rw [if_neg hov, hov']
          rfl
  | succ j ih =>
    intro hi
    rw [scanBack]
    by_cases hstop : (l.getD (j + 1) dfltPfx).max < t.min
    · rw [if_pos hstop]
      symm
      apply take_filter_nil
      intro k hk hkl
      by_cases hkj : k = j + 1
      · subst hkj
        exact overlaps_false_of_max_lt hstop
      · have hlt : (l.getD k dfltPfx).max < (l.getD (j + 1) dfltPfx).min :=
          pairwise_max_lt_min hpw (by omega) hi
        have hj1 : (l.getD (j + 1) dfltPfx).min ≤ (l.getD (j + 1) dfltPfx).max :=
          hne _ (getD_mem_of_lt hi)
        exact overlaps_false_of_max_lt (by omega)
    · rw [if_neg hstop, List.reverse_append, ih (by omega)]
      have htake : l.take (j + 2) = l.take (j + 1) ++ [l.getD (j + 1) dfltPfx] := by
        rw [List.take_succ, List.getElem?_eq_getElem hi, getD_eq_getElem_of_lt hi]
        rfl
      rw [htake, List.filter_append]
      congr 1
      rw [List.filter_cons]
      by_cases hov : overlaps t (l.getD (j + 1) dfltPfx) = true
      · rw [if_pos hov, hov]
        rfl
      · have hov' : overlaps t (l.getD (j + 1) dfltPfx) = false := by
          revert hov
          cases overlaps t (l.getD (j + 1) dfltPfx) <;> simp
        rw [if_neg hov, hov']
        rfl

/-- C10: on a list sorted ascending by `Min` with pairwise-disjoint nonempty
ranges, `findOverlappingPrefixes` returns exactly the entries whose range
intersects the target's, in list (hence ascending-`Min`) order — the
binary search finds the rightmost entry with `Min ≤ target.Max` and the
leftward scan's early stop is sound because earlier ranges end earlier. -/
theorem C10_find_overlapping_correct (t : IPPrefix) (l : List IPPrefix)
    (hpw : List.Pairwise (fun p q => p.max < q.min) l)
    (hne : ∀ p ∈ l, p.min ≤ p.max) :
    findOverlappingPrefixes t l = l.filter (fun p => overlaps t p) := by
  rw [findOverlappingPrefixes]
  split
  · next hnil =>
    subst hnil
    rfl
  · next hnnil =>
    have hn : 0 < l.length := List.length_pos.mpr hnnil
    have hmono : ∀ i j : Nat, i ≤ j → j < l.length →
        (l.getD j dfltPfx).min ≤ t.max → (l.getD i dfltPfx).min ≤ t.max := by
      intro i j hij hj hP
      rcases Nat.eq_or_lt_of_le hij with rfl | hlt
      · exact hP
      · have h1 : (l.getD i dfltPfx).max < (l.getD j dfltPfx).min :=
          pairwise_max_lt_min hpw hlt hj
        have h2 : (l.getD i dfltPfx).min ≤ (l.getD i dfltPfx).max :=
          hne _ (getD_mem_of_lt (by omega))
        omega
    have hpost := binSearchGo_spec l t.max hmono (l.length + 2) 0 ((l.length : Int) - 1)
      (-1) (by omega) (by omega) (by omega) (by omega)
      (fun i hi _ => Or.inl (by omega)) (fun i _ hi0 _ => by omega) (Or.inl rfl)
    dsimp only
    split
    · next hfp =>
      rcases hpost with ⟨_, hnone⟩ | ⟨h0, _, _, _⟩
      · symm
        apply filter_nil_of_all
        intro k hk
        have := hnone k hk
        exact overlaps_false_of_lt_min (by omega)
      · rw [hfp] at h0
        omega
    · next hfp =>
      rcases hpost with ⟨hres, _⟩ | ⟨h0, hlt, _, hmax⟩
      · exact absurd hres hfp
      · rw [scanBack_spec l t hpw hne _ (by omega)]
        conv_rhs =>
          rw [← List.take_append_drop
            ((binSearchGo l t.max (l.length + 2) 0 ((l.length : Int) - 1) (-1)).toNat + 1) l]
        rw [List.filter_append, drop_filter_nil _ l _ ?hdrop, List.append_nil]
        case hdrop =>
          intro k hk hkl
          have hnP : ¬ (l.getD k dfltPfx).min ≤ t.max := by
            intro hP
            have := hmax k hkl hP
            omega
          exact overlaps_false_of_lt_min (by omega)

/-- C10 (witness): the characterization at the target `10.0.0.0/16` against
the sorted disjoint sequence `[10.0.0.0/24, 11.0.0.0/24]`. -/
theorem C10_find_overlapping_correct_witness :
    List.Pairwise (fun p q => p.max < q.min)
      [parsedV4 0x0A000000 24, parsedV4 0x0B000000 24] ∧
    (∀ p ∈ [parsedV4 0x0A000000 24, parsedV4 0x0B000000 24], p.min ≤ p.max) ∧
    findOverlappingPrefixes (parsedV4 0x0A000000 16)
        [parsedV4 0x0A000000 24, parsedV4 0x0B000000 24] =
      [parsedV4 0x0A000000 24, parsedV4 0x0B000000 24].filter
        (fun p => overlaps (parsedV4 0x0A000000 16) p) :=
  ⟨by decide, by decide,
   C10_find_overlapping_correct (parsedV4 0x0A000000 16)
     [parsedV4 0x0A000000 24, parsedV4 0x0B000000 24] (by decide) (by decide)⟩

/-! ### The greedy decomposer (`createOptimalPrefixes`) -/

/-- The trailing-zero count never decreases below its accumulator. -/
theorem ctzAux_ge : ∀ (fuel a c : Nat), c ≤ ctzAux fuel a c := by
  intro fuel
  induction fuel with
  | zero =>
    intro a c
    rw [ctzAux]
  | succ f ih =>
    intro a c
    rw [ctzAux]
    split
    · exact le_trans (by omega) (ih (a / 2) (c + 1))
    · exact le_rfl

/-- Any power-of-two divisor exponent within the fuel is counted. -/
theorem ctzAux_dvd_le : ∀ (fuel a c h : Nat), 0 < a → 2 ^ h ∣ a → h ≤ fuel →
    c + h ≤ ctzAux fuel a c := by
  intro fuel
  induction fuel with
  | zero =>
    intro a c h _ _ hh
    rw [ctzAux]
    omega
  | succ f ih =>
    intro a c h ha hdvd hh
    rw [ctzAux]
    cases h with
    | zero =>
      split
      · have := ctzAux_ge f (a / 2) (c + 1)
        omega
      · omega
    | succ g =>
      have heven : a % 2 = 0 := by
        obtain ⟨m, hm⟩ := hdvd
        have he : 2 ^ (g + 1) * m = 2 * (2 ^ g * m) := by
          rw [pow_succ]
          ring
        rw [hm, he, Nat.mul_mod_right]
      rw [if_pos heven]
      have hle2 : 2 ^ (g + 1) ≤ a := Nat.le_of_dvd ha hdvd
      have h2 : (2 : Nat) ≤ 2 ^ (g + 1) := by
        have : (2 : Nat) ^ 1 ≤ 2 ^ (g + 1) := Nat.pow_le_pow_right (by omega) (by omega)
        omega
      have ha2 : 0 < a / 2 := by omega
      have hdvd2 : 2 ^ g ∣ a / 2 := by
        obtain ⟨m, hm⟩ := hdvd
        refine ⟨m, ?_⟩
        have he : 2 ^ (g + 1) * m = 2 ^ g * m * 2 := by
          rw [pow_succ]
          ring
        rw [hm, he, Nat.mul_div_cancel _ (by omega)]
      have := ih (a / 2) (c + 1) g ha2 hdvd2 (by omega)
      omega

/-- `countTrailingZeros` dominates every power-of-two divisor exponent of a
positive value. -/
theorem ctz_dvd_le {start h : Nat} {isIPv4 : Bool} (hpos : 0 < start)
    (hdvd : 2 ^ h ∣ start) (hh : h ≤ widthOf isIPv4) :
    h ≤ countTrailingZeros start isIPv4 := by
  rw [countTrailingZeros, if_neg (by omega)]
  have := ctzAux_dvd_le (widthOf isIPv4) start 0 h hpos hdvd hh
  omega

/-- The search loop of `findLargestValidPrefix` from length `len` finds the
aligned block starting at `start` of maximal size `2^(width-bits)` with
`width - bits ≤ width - len` that stays within `maxAllowed`. -/
theorem flvpGo_spec (isIPv4 : Bool) (start maxAllowed : Nat)
    (hs : start < 2 ^ widthOf isIPv4) (hle : start ≤ maxAllowed) :
    ∀ (fuel len : Nat), len ≤ widthOf isIPv4 → len + fuel = widthOf isIPv4 + 1 →
      ∃ bits, len ≤ bits ∧ bits ≤ widthOf isIPv4 ∧
        2 ^ (widthOf isIPv4 - bits) ∣ start ∧
        start + 2 ^ (widthOf isIPv4 - bits) - 1 ≤ maxAllowed ∧
        flvpGo isIPv4 start maxAllowed (countTrailingZeros start isIPv4) fuel len =
          some (⟨start, bits, start, start + 2 ^ (widthOf isIPv4 - bits) - 1⟩,
            start + 2 ^ (widthOf isIPv4 - bits) - 1) ∧
        (∀ h, h ≤ widthOf isIPv4 - len → 2 ^ h ∣ start →
          start + 2 ^ h - 1 ≤ maxAllowed → h ≤ widthOf isIPv4 - bits) := by
  intro fuel
  induction fuel with
  | zero =>
    intro len hlen hsum
    omega
  | succ f ih =>
    intro len hlen hsum
    rw [flvpGo]
    dsimp only
    by_cases hskip : widthOf isIPv4 - len > countTrailingZeros start isIPv4
    · rw [if_pos hskip]
      have hpos : 0 < start := by
        by_contra h0
        have hz : start = 0 := by omega
        rw [hz, countTrailingZeros, if_pos rfl] at hskip
        omega
      have hlt : len < widthOf isIPv4 := by
        have := ctzAux_ge (widthOf isIPv4) start 0
        by_contra hge
        have : len = widthOf isIPv4 := by omega
        omega
      obtain ⟨bits, hb1, hb2, hb3, hb4, hb5, hb6⟩ := ih (len + 1) (by omega) (by omega)
      refine ⟨bits, by omega, hb2, hb3, hb4, hb5, ?_⟩
      intro h hh hdvd hbound
      by_cases hcase : h ≤ widthOf isIPv4 - (len + 1)
      · exact hb6 h hcase hdvd hbound
      · exfalso
        have hheq : h = widthOf isIPv4 - len := by omega
        have := @ctz_dvd_le start h isIPv4 hpos hdvd (by omega)
        omega
    · rw [if_neg hskip]
      have hmod : start % 2 ^ widthOf isIPv4 = start := Nat.mod_eq_of_lt hs
      have hmaskdvd : 2 ^ (widthOf isIPv4 - len) ∣
          maskToLen isIPv4 (start % 2 ^ widthOf isIPv4) len := by
        rw [hmod]
        refine ⟨start / 2 ^ (widthOf isIPv4 - len), ?_⟩
        unfold maskToLen
        have := Nat.div_add_mod start (2 ^ (widthOf isIPv4 - len))
        omega
      have hmasklt : maskToLen isIPv4 (start % 2 ^ widthOf isIPv4) len <
          2 ^ widthOf isIPv4 := by
        rw [hmod]
        unfold maskToLen
        omega
      rw [prefixToUint256Range_aligned hlen hmasklt hmaskdvd]
      dsimp only
      by_cases hdvd : start % 2 ^ (widthOf isIPv4 - len) = 0
      · have hpa : maskToLen isIPv4 (start % 2 ^ widthOf isIPv4) len = start := by
          rw [hmod]
          unfold maskToLen
          omega
        rw [hpa]
        by_cases hbound : start + 2 ^ (widthOf isIPv4 - len) - 1 ≤ maxAllowed
        · rw [if_pos ⟨rfl, hbound⟩]
          exact ⟨len, le_rfl, hlen, Nat.dvd_of_mod_eq_zero hdvd, hbound, rfl,
            fun h hh _ _ => by omega⟩
        · rw [if_neg (by
            intro hc
            exact hbound hc.2)]
          have hlt : len < widthOf isIPv4 := by
            by_contra hge
            have hw : len = widthOf isIPv4 := by omega
            rw [hw] at hbound
            simp at hbound
            omega
          obtain ⟨bits, hb1, hb2, hb3, hb4, hb5, hb6⟩ := ih (len + 1) (by omega) (by omega)
          refine ⟨bits, by omega, hb2, hb3, hb4, hb5, ?_⟩
          intro h hh hdvd2 hbound2
          by_cases hcase : h ≤ widthOf isIPv4 - (len + 1)
          · exact hb6 h hcase hdvd2 hbound2
          · exfalso
            have hheq : h = widthOf isIPv4 - len := by omega
            rw [hheq] at hbound2
            omega
      · have hr : 0 < start % 2 ^ (widthOf isIPv4 - len) := by omega
        have hrle : start % 2 ^ (widthOf isIPv4 - len) ≤ start :=
          Nat.mod_le _ _
        have hpa : maskToLen isIPv4 (start % 2 ^ widthOf isIPv4) len < start := by
          rw [hmod]
          unfold maskToLen
          omega
        rw [if_neg (by
          intro hc
          rcases hc with ⟨hc1, _⟩
          omega)]
        have hlt : len < widthOf isIPv4 := by
          by_contra hge
          have hw : len = widthOf isIPv4 := by omega
          rw [hw] at hdvd
          simp at hdvd
          exact hdvd (Nat.mod_one start)
        obtain ⟨bits, hb1, hb2, hb3, hb4, hb5, hb6⟩ := ih (len + 1) (by omega) (by omega)
        refine ⟨bits, by omega, hb2, hb3, hb4, hb5, ?_⟩
        intro h hh hdvd2 hbound2
        by_cases hcase : h ≤ widthOf isIPv4 - (len + 1)
        · exact hb6 h hcase hdvd2 hbound2
        · exfalso
          have hheq : h = widthOf isIPv4 - len := by omega
          rw [hheq] at hdvd2
          exact hdvd (Nat.mod_eq_zero_of_dvd hdvd2)

/-- `findLargestValidPrefix` returns the aligned block starting at `start`
of maximal size that stays within `maxAllowed`, together with its end. -/
theorem findLargestValidPrefix_spec (isIPv4 : Bool) (start maxAllowed : Nat)
    (hs : start < 2 ^ widthOf isIPv4) (hle : start ≤ maxAllowed) :
    ∃ bits, bits ≤ widthOf isIPv4 ∧ 2 ^ (widthOf isIPv4 - bits) ∣ start ∧
      start + 2 ^ (widthOf isIPv4 - bits) - 1 ≤ maxAllowed ∧
      findLargestValidPrefix isIPv4 start maxAllowed =
        (⟨start, bits, start, start + 2 ^ (widthOf isIPv4 - bits) - 1⟩,
          start + 2 ^ (widthOf isIPv4 - bits) - 1) ∧
      (∀ h, h ≤ widthOf isIPv4 → 2 ^ h ∣ start →
        start + 2 ^ h - 1 ≤ maxAllowed → h ≤ widthOf isIPv4 - bits) := by
  obtain ⟨bits, _, hb2, hb3, hb4, hb5, hb6⟩ :=
    flvpGo_spec isIPv4 start maxAllowed hs hle (widthOf isIPv4 + 1) 0 (by omega) (by omega)
  refine ⟨bits, hb2, hb3, hb4, ?_, ?_⟩
  · rw [findLargestValidPrefix, hb5]
  · intro h hh hdvd hbound
    exact hb6 h (by omega) hdvd hbound

/-- Structure of the greedy decomposition: every emitted prefix is an aligned
block, the blocks are listed in ascending disjoint order starting at or after
`current`, and their union is exactly `[current, maxVal]`. -/
theorem createOptimalGo_spec (isIPv4 : Bool) (b : Nat)
    (hb : b < 2 ^ widthOf isIPv4) :
    ∀ (fuel a : Nat), a ≤ b → b + 1 - a ≤ fuel →
      (∀ p ∈ createOptimalGo isIPv4 b fuel a,
        p.addr = p.min ∧ p.bits ≤ widthOf isIPv4 ∧
          2 ^ (widthOf isIPv4 - p.bits) ∣ p.min ∧
          p.max = p.min + 2 ^ (widthOf isIPv4 - p.bits) - 1) ∧
      (∀ p ∈ createOptimalGo isIPv4 b fuel a, a ≤ p.min) ∧
      List.Pairwise (fun p q => p.max < q.min) (createOptimalGo isIPv4 b fuel a) ∧
      (∀ x, coversAddr (createOptimalGo isIPv4 b fuel a) x ↔ a ≤ x ∧ x ≤ b) := by
  intro fuel
  induction fuel with
  | zero =>
    intro a hab hfuel
    omega
  | succ f ih =>
    intro a hab hfuel
    obtain ⟨bits, hb1, hb2, hb3, hb4, hb6⟩ :=
      findLargestValidPrefix_spec isIPv4 a b (by omega) hab
    rw [createOptimalGo, if_pos hab, hb4]
    dsimp only
    by_cases hend : a + 2 ^ (widthOf isIPv4 - bits) - 1 ≥ b
    · rw [if_pos hend]
      have hone : (1 : Nat) ≤ 2 ^ (widthOf isIPv4 - bits) := Nat.one_le_two_pow
      have hmax : a + 2 ^ (widthOf isIPv4 - bits) - 1 = b := by omega
      refine ⟨?_, ?_, ?_, ?_⟩
      · intro p hp
        rcases List.mem_singleton.mp hp with rfl
        exact ⟨rfl, hb1, hb2, rfl⟩
      · intro p hp
        rcases List.mem_singleton.mp hp with rfl
        exact le_rfl
      · exact List.pairwise_singleton _ _
      · intro x
        constructor
        · rintro ⟨p, hp, hx1, hx2⟩
          rcases List.mem_singleton.mp hp with rfl
          dsimp only at hx1 hx2
          omega
        · intro hx
          exact ⟨_, List.mem_singleton_self _, by dsimp only; omega, by dsimp only; omega⟩
    · rw [if_neg hend]
      have hone : (1 : Nat) ≤ 2 ^ (widthOf isIPv4 - bits) := Nat.one_le_two_pow
      have hrec := ih (a + 2 ^ (widthOf isIPv4 - bits) - 1 + 1) (by omega) (by omega)
      obtain ⟨hr1, hr2, hr3, hr4⟩ := hrec
      refine ⟨?_, ?_, ?_, ?_⟩
      · intro p hp
        rcases List.mem_cons.mp hp with rfl | hp'
        · exact ⟨rfl, hb1, hb2, rfl⟩
        · exact hr1 p hp'
      · intro p hp
        rcases List.mem_cons.mp hp with rfl | hp'
        · exact le_rfl
        · have := hr2 p hp'
          omega
      · refine List.Pairwise.cons ?_ hr3
        intro q hq
        have := hr2 q hq
        dsimp only
        omega
      · intro x
        constructor
        · rintro ⟨p, hp, hx1, hx2⟩
          rcases List.mem_cons.mp hp with rfl | hp'
          · dsimp only at hx1 hx2
            omega
          · have := (hr4 x).mp ⟨p, hp', hx1, hx2⟩
            omega
        · intro hx
          by_cases hin : x ≤ a + 2 ^ (widthOf isIPv4 - bits) - 1
          · exact ⟨_, List.mem_cons_self _ _, by dsimp only; omega, by dsimp only; omega⟩
          · obtain ⟨p, hp, h1, h2⟩ := (hr4 x).mpr (by omega)
            exact ⟨p, List.mem_cons_of_mem _ hp, h1, h2⟩

/-- Dyadic nesting: an aligned block starting strictly inside another aligned
block cannot reach past its end. -/
theorem dyadic_no_straddle {H k a β : Nat} (hHa : 2 ^ H ∣ a) (hkβ : 2 ^ k ∣ β)
    (h1 : a < β) (h2 : β ≤ a + 2 ^ H - 1) (h3 : a + 2 ^ H ≤ β + 2 ^ k - 1) : False := by
  have honeH : (1 : Nat) ≤ 2 ^ H := Nat.one_le_two_pow
  have honek : (1 : Nat) ≤ 2 ^ k := Nat.one_le_two_pow
  rcases le_or_lt H k with hHk | hkH
  · -- the straddler is at least as coarse: it would be a multiple of 2^H
    -- strictly between consecutive multiples of 2^H
    have hHβ : 2 ^ H ∣ β := dvd_trans (Nat.pow_dvd_pow 2 hHk) hkβ
    obtain ⟨m, hm⟩ := hHa
    obtain ⟨n, hn⟩ := hHβ
    have hmn : m < n := by
      by_contra hge
      push_neg at hge
      have := Nat.mul_le_mul_left (2 ^ H) hge
      omega
    have hnm : n < m + 1 := by
      by_contra hge
      push_neg at hge
      have := Nat.mul_le_mul_left (2 ^ H) hge
      have hdist : 2 ^ H * (m + 1) = 2 ^ H * m + 2 ^ H := by ring
      omega
    omega
  · -- the straddler is finer: it would be a multiple of 2^k strictly between
    -- `a + 2^H - 2^k` and the multiple `a + 2^H`
    have hka : 2 ^ k ∣ a := dvd_trans (Nat.pow_dvd_pow 2 (by omega)) hHa
    have hkH2 : 2 ^ k ∣ 2 ^ H := Nat.pow_dvd_pow 2 (by omega)
    have hkA : 2 ^ k ∣ a + 2 ^ H := Nat.dvd_add hka hkH2
    obtain ⟨s, hsA⟩ := hkA
    obtain ⟨t, ht⟩ := hkβ
    have hkltH : 2 ^ k < 2 ^ H := Nat.pow_lt_pow_right (by omega) hkH
    have hts : t < s := by
      by_contra hge
      push_neg at hge
      have := Nat.mul_le_mul_left (2 ^ k) hge
      omega
    have hst : s ≤ t + 1 := by
      by_contra hgt
      push_neg at hgt
      have : t + 2 ≤ s := by omega
      have := Nat.mul_le_mul_left (2 ^ k) this
      have hdist : 2 ^ k * (t + 2) = 2 ^ k * t + 2 ^ k + 2 ^ k := by ring
      omega
    have hseq : s = t + 1 := by omega
    rw [hseq] at hsA
    have hdist : 2 ^ k * (t + 1) = 2 ^ k * t + 2 ^ k := by ring
    omega

/-- A filter that rejects some member is strictly shorter than its input. -/
theorem length_filter_lt_of_mem {x : IPPrefix} {f : IPPrefix → Bool} :
    ∀ {l : List IPPrefix}, x ∈ l → f x = false → (l.filter f).length < l.length := by
  intro l
  induction l with
  | nil =>
    intro hx
    exact absurd hx (by simp)
  | cons y ys ih =>
    intro hx hfx
    rw [List.filter_cons]
    rcases List.mem_cons.mp hx with rfl | hx'
    · rw [hfx]
      simp only [Bool.false_eq_true, if_false, List.length_cons]
      have := List.length_filter_le f ys
      omega
    · by_cases hfy : f y = true
      · rw [if_pos hfy]
        have := ih hx' hfx
        simp only [List.length_cons]
        omega
      · rw [if_neg hfy]
        have := ih hx' hfx
        simp only [List.length_cons]
        omega

/-- Minimality of the greedy decomposition: any list of aligned blocks whose
union is exactly `[current, maxVal]` has at least as many elements. -/
theorem createOptimalGo_min (isIPv4 : Bool) (b : Nat)
    (hb : b < 2 ^ widthOf isIPv4) :
    ∀ (fuel a : Nat), a ≤ b → b + 1 - a ≤ fuel →
      ∀ M : List IPPrefix,
        (∀ C ∈ M, AlignedRange (widthOf isIPv4) C.min C.max) →
        (∀ x, coversAddr M x ↔ a ≤ x ∧ x ≤ b) →
        (createOptimalGo isIPv4 b fuel a).length ≤ M.length := by
  intro fuel
  induction fuel with
  | zero =>
    intro a hab hfuel
    omega
  | succ f ih =>
    intro a hab hfuel M hMal hMcov
    obtain ⟨bits, hb1, hb2, hb3, hb4, hb6⟩ :=
      findLargestValidPrefix_spec isIPv4 a b (by omega) hab
    have hone : (1 : Nat) ≤ 2 ^ (widthOf isIPv4 - bits) := Nat.one_le_two_pow
    -- the block of M that covers `a` starts at `a` and ends at or before the
    -- greedy block's end
    obtain ⟨B, hBmem, hBl, hBr⟩ := (hMcov a).mpr ⟨le_rfl, hab⟩
    have hBmin : B.min = a := by
      have hcovmin : coversAddr M B.min := by
        refine ⟨B, hBmem, le_rfl, ?_⟩
        omega
      have := (hMcov B.min).mp hcovmin
      omega
    have hBmax : B.max ≤ b := by
      have hcovmax : coversAddr M B.max := ⟨B, hBmem, by omega, le_rfl⟩
      exact ((hMcov B.max).mp hcovmax).2
    obtain ⟨kB, hkB1, hkB2, hkB3⟩ := hMal B hBmem
    have hBle : B.max ≤ a + 2 ^ (widthOf isIPv4 - bits) - 1 := by
      have := hb6 kB hkB1 (hBmin ▸ hkB2) (by omega)
      have hpowle : 2 ^ kB ≤ 2 ^ (widthOf isIPv4 - bits) :=
        Nat.pow_le_pow_right (by omega) this
      omega
    rw [createOptimalGo, if_pos hab, hb4]
    dsimp only
    by_cases hend : a + 2 ^ (widthOf isIPv4 - bits) - 1 ≥ b
    · rw [if_pos hend]
      have : M ≠ [] := by
        intro hnil
        rw [hnil] at hBmem
        exact absurd hBmem (by simp)
      have := List.length_pos.mpr this
      simp only [List.length_singleton]
      omega
    · rw [if_neg hend]
      -- split M: blocks ending inside the greedy block, blocks starting after
      set g := a + 2 ^ (widthOf isIPv4 - bits) - 1 with hg
      have hnostraddle : ∀ C ∈ M, C.max ≤ g ∨ g + 1 ≤ C.min := by
        intro C hCmem
        by_contra hcon
        push_neg at hcon
        obtain ⟨hC1, hC2⟩ := hcon
        obtain ⟨kC, hkC1, hkC2, hkC3⟩ := hMal C hCmem
        have hCmin : a ≤ C.min := by
          have : coversAddr M C.min := ⟨C, hCmem, le_rfl, by omega⟩
          exact ((hMcov C.min).mp this).1
        have hCmax : C.max ≤ b := by
          have : coversAddr M C.max := ⟨C, hCmem, by omega, le_rfl⟩
          exact ((hMcov C.max).mp this).2
        rcases Nat.eq_or_lt_of_le hCmin with heq | hlt
        · -- starts at `a`: contradicts greedy maximality
          have := hb6 kC hkC1 (heq ▸ hkC2) (by omega)
          have hpowle : 2 ^ kC ≤ 2 ^ (widthOf isIPv4 - bits) :=
            Nat.pow_le_pow_right (by omega) this
          omega
        · -- starts inside the greedy block: dyadic nesting
          exact dyadic_no_straddle hb2 hkC2 hlt (by omega) (by omega)
      have hgb : g + 1 ≤ b := by omega
      set M' := M.filter (fun C => decide (g + 1 ≤ C.min)) with hM'
      have hM'sub : ∀ C ∈ M', C ∈ M := fun C hC => List.mem_of_mem_filter hC
      have hM'al : ∀ C ∈ M', AlignedRange (widthOf isIPv4) C.min C.max :=
        fun C hC => hMal C (hM'sub C hC)
      have hM'cov : ∀ x, coversAddr M' x ↔ g + 1 ≤ x ∧ x ≤ b := by
        intro x
        constructor
        · rintro ⟨C, hC, hx1, hx2⟩
          have hCmem := hM'sub C hC
          have hCge : g + 1 ≤ C.min := by
            have := List.of_mem_filter hC
            simpa using this
          have hxb : x ≤ b := ((hMcov x).mp ⟨C, hCmem, hx1, hx2⟩).2
          exact ⟨by omega, hxb⟩
        · intro hx
          obtain ⟨C, hCmem, hx1, hx2⟩ := (hMcov x).mpr ⟨by omega, hx.2⟩
          have hCgood : g + 1 ≤ C.min := by
            rcases hnostraddle C hCmem with h | h
            · omega
            · exact h
          refine ⟨C, ?_, hx1, hx2⟩
          rw [hM']
          exact List.mem_filter.mpr ⟨hCmem, by simpa using hCgood⟩
      have hih := ih (g + 1) hgb (by omega) M' hM'al hM'cov
      have hBdrop : (M.filter (fun C => decide (g + 1 ≤ C.min))).length < M.length := by
        apply length_filter_lt_of_mem hBmem
        simp only [decide_eq_false_iff_not]
        omega
      simp only [List.length_cons]
      rw [hM'] at hih
      omega

/-- C9: for every interval `[a, b]` with `a ≤ b` inside the family space,
`createOptimalPrefixes` returns aligned CIDR blocks, listed in ascending
pairwise-disjoint order, whose union is exactly `[a, b]`, and of minimal
count — no list of aligned blocks with fewer elements has union exactly
`[a, b]`. -/
theorem C9_decomposer_correct (isIPv4 : Bool) (a b : Nat) (hab : a ≤ b)
    (hb : b < 2 ^ widthOf isIPv4) :
    (∀ p ∈ createOptimalPrefixes isIPv4 a b,
      p.addr = p.min ∧ p.bits ≤ widthOf isIPv4 ∧
        2 ^ (widthOf isIPv4 - p.bits) ∣ p.min ∧
        p.max = p.min + 2 ^ (widthOf isIPv4 - p.bits) - 1) ∧
    List.Pairwise (fun p q => p.max < q.min) (createOptimalPrefixes isIPv4 a b) ∧
    (∀ x, coversAddr (createOptimalPrefixes isIPv4 a b) x ↔ a ≤ x ∧ x ≤ b) ∧
    (∀ M : List IPPrefix,
      (∀ C ∈ M, AlignedRange (widthOf isIPv4) C.min C.max) →
      (∀ x, coversAddr M x ↔ a ≤ x ∧ x ≤ b) →
      (createOptimalPrefixes isIPv4 a b).length ≤ M.length) := by
  unfold createOptimalPrefixes
  obtain ⟨h1, _, h3, h4⟩ := createOptimalGo_spec isIPv4 b hb (b + 1 - a) a hab le_rfl
  exact ⟨h1, h3, h4,
    fun M hMa hMc => createOptimalGo_min isIPv4 b hb (b + 1 - a) a hab le_rfl M hMa hMc⟩

/-- C9 (witness): the decomposer characterization at the concrete IPv4
interval `[1, 6]` (whose minimal cover is the four blocks
`[1,1] [2,3] [4,5] [6,6]`). -/
theorem C9_decomposer_correct_witness :
    (1 : Nat) ≤ 6 ∧ (6 : Nat) < 2 ^ widthOf true ∧
    ((∀ p ∈ createOptimalPrefixes true 1 6,
        p.addr = p.min ∧ p.bits ≤ widthOf true ∧
          2 ^ (widthOf true - p.bits) ∣ p.min ∧
          p.max = p.min + 2 ^ (widthOf true - p.bits) - 1) ∧
      List.Pairwise (fun p q => p.max < q.min) (createOptimalPrefixes true 1 6) ∧
      (∀ x, coversAddr (createOptimalPrefixes true 1 6) x ↔ 1 ≤ x ∧ x ≤ 6) ∧
      (∀ M : List IPPrefix,
        (∀ C ∈ M, AlignedRange (widthOf true) C.min C.max) →
        (∀ x, coversAddr M x ↔ 1 ≤ x ∧ x ≤ 6) →
        (createOptimalPrefixes true 1 6).length ≤ M.length)) :=
  ⟨by decide, by decide, C9_decomposer_correct true 1 6 (by decide) (by decide)⟩

end Netjugo
